import Mathlib

/-!
# Operation: keyword labels for product records (`src/index.js`)

A shallow embedding of the text-normalisation and keyword-ranking functions of
`src/index.js`, and theorems about them.

## Modelling conventions

* A JavaScript string is the list of its UTF-16 code units (`Str = List Nat`);
  `length`, `slice`, `charAt` and the regular expressions of the source (none has
  the `u` flag) all work on code units.
* `String.prototype.toLowerCase` is the Unicode case conversion of the runtime.
  Its action on a code unit below 128 is fixed (`A`-`Z` become `a`-`z`, the rest is
  kept) and is written out here.  What it emits for a code unit from 128 upwards
  may depend on the surrounding text (final sigma, surrogate pairs) and is taken
  from the environment (`Env.lowerNonAscii`).
* The part-of-speech tagger (`compromise`) and the stop-word list (`stopword`) are
  libraries outside the repository; they are fields of `Env` as well.
* A plain object used as a map (`pluralMap`, `frequencyMap`) is an association
  list of its own properties in insertion order.  Reading a missing key of a
  plain object yields what the object inherits under that name
  (`constructor`, `toString`, ...); `inheritedNames` lists those names.
-/

namespace Operation

/-- A JavaScript string: its UTF-16 code units. -/
abbrev Str := List Nat

/-- The code units of a literal. -/
def js (s : String) : Str := s.toList.map Char.toNat

/-- What the program takes from its runtime and its libraries. -/
structure Env where
  /-- Lower-case conversion: what a code unit `c ≥ 128` standing between `before`
  and `after` contributes to `(before ++ c :: after).toLowerCase()`. -/
  lowerNonAscii : Str → Nat → Str → Str
  /-- Upper-case conversion of a one-unit string whose code unit is `≥ 128`. -/
  upperNonAscii : Nat → Str
  /-- Whether `nlp(word).nouns().out("array")` is non-empty. -/
  isNoun : Str → Bool
  /-- Whether `nlp(word).verbs().out("array")` is non-empty. -/
  isVerb : Str → Bool
  /-- Whether `nlp(word).adjectives().out("array")` is non-empty. -/
  isAdjective : Str → Bool
  /-- Whether `stopword.removeStopwords` drops the token. -/
  isStopword : Str → Bool

/-! ## Characters -/

/-- The class `\s` of a JavaScript regular expression, which is also what `trim` strips:
WhiteSpace and LineTerminator code units. -/
def isSpace (c : Nat) : Bool :=
  c == 9 || c == 10 || c == 11 || c == 12 || c == 13 || c == 32 || c == 160 ||
  c == 5760 || (decide (8192 ≤ c) && decide (c ≤ 8202)) || c == 8232 || c == 8233 ||
  c == 8239 || c == 8287 || c == 12288 || c == 65279

/-- LineTerminator code units: the ones `.` does not match. -/
def isLineTerminator (c : Nat) : Bool :=
  c == 10 || c == 13 || c == 8232 || c == 8233

/-- The class `[a-z]`. -/
def isLowerAZ (c : Nat) : Bool := decide (97 ≤ c) && decide (c ≤ 122)

/-- Lower-case conversion of a code unit below 128. -/
def asciiLower (c : Nat) : Nat := if 65 ≤ c ∧ c ≤ 90 then c + 32 else c

/-- Upper-case conversion of a code unit below 128. -/
def asciiUpper (c : Nat) : Nat := if 97 ≤ c ∧ c ≤ 122 then c - 32 else c

/-- The contribution of one code unit to `toLowerCase`. -/
def lowerUnit (env : Env) (before : Str) (c : Nat) (after : Str) : Str :=
  if c < 128 then [asciiLower c] else env.lowerNonAscii before c after

/-- The conversion `toLowerCase` with the text already passed in `before`. -/
def toLowerCaseFrom (env : Env) : Str → Str → Str
  | _, [] => []
  | before, c :: after =>
    lowerUnit env before c after ++ toLowerCaseFrom env (before ++ [c]) after

/-- The method `String.prototype.toLowerCase`. -/
def toLowerCase (env : Env) (s : Str) : Str := toLowerCaseFrom env [] s

/-- The method `toUpperCase` on `word.charAt(0)`, a string of at most one code unit. -/
def toUpperCaseChar (env : Env) : Str → Str
  | [] => []
  | c :: _ => if c < 128 then [asciiUpper c] else env.upperNonAscii c

/-! ## String helpers of the runtime -/

/-- The method `String.prototype.trim`. -/
def trim (s : Str) : Str := (s.dropWhile isSpace).rdropWhile isSpace

/-- The call `s.split(/\s+/)`: the pieces between maximal runs of white space; a
leading or trailing run leaves an empty first or last piece, and `"".split` is `[""]`. -/
def splitWs : Str → List Str
  | [] => [[]]
  | c :: cs =>
    if isSpace c then
      match cs with
      | [] => [[], []]
      | d :: _ => if isSpace d then splitWs cs else [] :: splitWs cs
    else
      match splitWs cs with
      | [] => [[c]]
      | w :: ws => (c :: w) :: ws

/-- The call `words.join(" ")`. -/
def joinSpace (ws : List Str) : Str := List.intercalate [32] ws

/-- The call `s.replace(/[^a-z\s]/g, " ")`. -/
def replaceNonLetters (s : Str) : Str :=
  s.map (fun c => if isLowerAZ c || isSpace c then c else 32)

/-- The call `s.replace(/\s+/g, " ")`: every maximal run of white space becomes one space. -/
def collapseWs : Str → Str
  | [] => []
  | c :: cs =>
    if isSpace c then
      match cs with
      | [] => [32]
      | d :: _ => if isSpace d then collapseWs cs else 32 :: collapseWs cs
    else c :: collapseWs cs

/-- The elements of `[...new Set(xs)]`: first occurrences, in order. -/
def uniq {α : Type} [DecidableEq α] : List α → List α
  | [] => []
  | x :: xs => x :: (uniq xs).filter (fun y => decide (y ≠ x))

/-! ## cleanText -/

/-- The closing delimiter that belongs to an opening one. -/
def closeOf (c : Nat) : Option Nat :=
  if c = 91 then some 93 else if c = 40 then some 41 else if c = 123 then some 125 else none

/-- The part `.*?` followed by the closing delimiter, tried right after an opening
delimiter: the text up to the first `close`, provided no line terminator comes
before it. -/
def lazyUpTo (close : Nat) : Str → Option Str
  | [] => none
  | c :: cs =>
    if c = close then some []
    else if isLineTerminator c then none
    else (lazyUpTo close cs).map (fun inner => c :: inner)

/-- The callback of the first `replace` in `cleanText`, on `match.slice(1, -1)`. -/
def bracketReplacement (env : Env) (priorityWords : List Str) (inner : Str) : Str :=
  let wordsInBrackets := (splitWs inner).map (fun word => toLowerCase env (trim word))
  let preservedWords := wordsInBrackets.filter
    (fun word => priorityWords.any (fun pw => decide (toLowerCase env pw = word)))
  if preservedWords.length ≠ 0 then joinSpace preservedWords else []

/-- The call `text.replace(/\[.*?\]|\(.*?\)|\{.*?\}/g, callback)`, scanning from the left;
`skip` counts the code units of the current match that are still to be passed. -/
def replaceBracketsFrom (env : Env) (priorityWords : List Str) : Nat → Str → Str
  | _, [] => []
  | skip + 1, _ :: cs => replaceBracketsFrom env priorityWords skip cs
  | 0, c :: cs =>
    match closeOf c with
    | none => c :: replaceBracketsFrom env priorityWords 0 cs
    | some close =>
      match lazyUpTo close cs with
      | none => c :: replaceBracketsFrom env priorityWords 0 cs
      | some inner =>
        bracketReplacement env priorityWords inner ++
          replaceBracketsFrom env priorityWords (inner.length + 1) cs

/-- The first statement of `cleanText`. -/
def replaceBrackets (env : Env) (priorityWords : List Str) (text : Str) : Str :=
  replaceBracketsFrom env priorityWords 0 text

/-- The function `cleanText(text, priorityWords)`. -/
def cleanText (env : Env) (text : Str) (priorityWords : List Str) : Str :=
  trim (collapseWs (replaceNonLetters (toLowerCase env (replaceBrackets env priorityWords text))))

/-! ## isMeaningfulWord -/

/-- The class `[bcdfghjklmnpqrstvwxyz]` under the flag `i`. -/
def isConsonantClass (c : Nat) : Bool :=
  (js "bcdfghjklmnpqrstvwxyz").contains (asciiLower c)

/-- The class `[aeiou]` under the flag `i`. -/
def isVowelClass (c : Nat) : Bool :=
  (js "aeiou").contains (asciiLower c)

/-- Whether four code units of the class stand at the head of the text. -/
def fourAtHead (p : Nat → Bool) : Str → Bool
  | a :: b :: c :: d :: _ => p a && p b && p c && p d
  | _ => false

/-- The test of `/[class]{4,}/`: four code units of the class in a row, anywhere. -/
def testRun4 (p : Nat → Bool) : Str → Bool
  | [] => false
  | c :: cs => fourAtHead p (c :: cs) || testRun4 p cs

/-- The function `isMeaningfulWord(word)`. -/
def isMeaningfulWord (env : Env) (word : Str) : Bool :=
  let hasMeaning := env.isNoun word || env.isVerb word || env.isAdjective word
  let isAlphabetic := decide (word ≠ []) && word.all isLowerAZ
  let isRandom := testRun4 isConsonantClass word || testRun4 isVowelClass word ||
    decide (word.length > 15)
  hasMeaning && isAlphabetic && !isRandom && decide (word.length > 2)

/-! ## getPluralForm and applyPluralCorrection -/

/-- The object `pluralRules` in the order of its keys; a key `"x$"` is kept as the
suffix `x` it matches at the end of the word. -/
def pluralRules : List (Str × Str) :=
  [(js "y", js "ies"), (js "s", js "s"), (js "ch", js "ches"), (js "sh", js "shes"),
   (js "o", js "oes"), (js "f", js "ves"), (js "fe", js "ves")]

/-- The loop `for (let rule in pluralRules)`: the first rule whose pattern matches
rewrites the end of the word; `word + "s"` when none does. -/
def applyRules (word : Str) : List (Str × Str) → Str
  | [] => word ++ js "s"
  | (suffix, plural) :: rest =>
    if suffix.isSuffixOf word then word.take (word.length - suffix.length) ++ plural
    else applyRules word rest

/-- The function `getPluralForm(word)`. -/
def getPluralForm (word : Str) : Str :=
  if (js "s").isSuffixOf word then word else applyRules word pluralRules

/-- A value met when a plain object is read: a string, or what every plain object
inherits under a name (a built-in function, or the prototype for `__proto__`). -/
inductive Val where
  | str (s : Str)
  | inherited (name : Str)
  deriving DecidableEq, Repr

/-- The property names a plain object inherits. -/
def inheritedNames : List Str :=
  [js "constructor", js "hasOwnProperty", js "isPrototypeOf", js "propertyIsEnumerable",
   js "toLocaleString", js "toString", js "valueOf", js "__proto__", js "__defineGetter__",
   js "__defineSetter__", js "__lookupGetter__", js "__lookupSetter__"]

/-- The expression `word.endsWith("s") ? word.slice(0, -1) : word`. -/
def singularForm (word : Str) : Str :=
  if (js "s").isSuffixOf word then word.dropLast else word

/-- The condition under which `applyPluralCorrection` records `word` in `pluralMap`. -/
def hasPluralEntry (words : List Str) (word : Str) : Bool :=
  decide (singularForm word ∈ words) && decide (getPluralForm word ∈ words) &&
    decide (getPluralForm word ≠ word)

/-- The own properties of `pluralMap` after the `forEach`, in insertion order.  An
assignment to `__proto__` with a string creates no property. -/
def pluralMap (words : List Str) : List (Str × Str) :=
  (words.filter (fun word => hasPluralEntry words word && decide (word ≠ js "__proto__"))).map
    (fun word => (word, getPluralForm word))

/-- The expression `pluralMap[word] || word`. -/
def pluralLookup (own : List (Str × Str)) (word : Str) : Val :=
  match own.lookup word with
  | some plural => if plural = [] then Val.str word else Val.str plural
  | none => if word ∈ inheritedNames then Val.inherited word else Val.str word

/-- The function `applyPluralCorrection(words)`. -/
def applyPluralCorrection (words : List Str) : List Val :=
  words.map (pluralLookup (pluralMap words))

/-- The string of a value that is one. -/
def Val.token : Val → Option Str
  | Val.str s => some s
  | Val.inherited _ => none

/-! ## buildWordFrequencyMap, extractTopWords, processDataset -/

/-- A frequency map: the own properties of the object, in insertion order. -/
abbrev FreqMap := List (Str × Nat)

/-- The expression `frequencyMap[word] || 0` for a word that is no inherited name. -/
def FreqMap.count (m : FreqMap) (word : Str) : Nat := (m.lookup word).getD 0

/-- The statement `frequencyMap[word] = (frequencyMap[word] || 0) + 1`. -/
def FreqMap.increment : FreqMap → Str → FreqMap
  | [], word => [(word, 1)]
  | (k, n) :: rest, word =>
    if k = word then (k, n + 1) :: rest
    else (k, n) :: FreqMap.increment rest word

/-- The call `stopword.removeStopwords(words)`. -/
def removeStopwords (env : Env) (words : List Str) : List Str :=
  words.filter (fun word => !env.isStopword word)

/-- The tokens one line adds to the frequency map, in order. -/
def countedWords (env : Env) (ignoredWords : List Str) (line : Str) : List Str :=
  let words := splitWs (cleanText env line [])
  let words := words.filter (fun word => decide (word ∉ ignoredWords))
  let words := removeStopwords env words
  words.filter (isMeaningfulWord env)

/-- The function `buildWordFrequencyMap(dataset, ignoredWords)`.  The map is read and written
only at words that passed `isMeaningfulWord`, none of which is an inherited name
(`not_inherited_of_isMeaningfulWord`), so own properties are all that is ever seen. -/
def buildWordFrequencyMap (env : Env) (dataset : List Str) (ignoredWords : List Str) : FreqMap :=
  dataset.foldl (fun frequencyMap line =>
    (countedWords env ignoredWords line).foldl FreqMap.increment frequencyMap) []

/-- The tokens of a line in `extractTopWords` after the three filters (the value of
`words` before `applyPluralCorrection`). -/
def filteredWords (env : Env) (line : Str) (ignoredWords priorityWords : List Str) : List Str :=
  let words := splitWs (cleanText env line priorityWords)
  let words := removeStopwords env (words.filter (fun word => decide (word ∉ ignoredWords)))
  words.filter (isMeaningfulWord env)

/-- The tokens of a line in `extractTopWords` after the plural correction (the value of
`words` before `new Set`).  An inherited value cannot occur among them, because no
inherited name passes `isMeaningfulWord` (`correctedWords_eq_map`). -/
def correctedWords (env : Env) (line : Str) (ignoredWords priorityWords : List Str) : List Str :=
  (applyPluralCorrection (filteredWords env line ignoredWords priorityWords)).filterMap Val.token

/-- The value of `uniqueWords` after `[...new Set(words)]`. -/
def uniqueWords (env : Env) (line : Str) (ignoredWords priorityWords : List Str) : List Str :=
  uniq (correctedWords env line ignoredWords priorityWords)

/-- The value of `priorityInLine`. -/
def priorityInLine (env : Env) (line : Str) (ignoredWords priorityWords : List Str) : List Str :=
  priorityWords.filter (fun word => decide (word ∈ uniqueWords env line ignoredWords priorityWords))

/-- The candidates: `uniqueWords` without the priority words, kept when
`frequencyMap[word]` is truthy. -/
def candidateWords (env : Env) (line : Str) (frequencyMap : FreqMap)
    (ignoredWords priorityWords : List Str) : List Str :=
  ((uniqueWords env line ignoredWords priorityWords).filter
    (fun word => decide (word ∉ priorityWords))).filter
    (fun word => decide (frequencyMap.count word ≠ 0))

/-- The value of `rankedWords`: the candidates under the stable sort with the
comparator `frequencyMap[b] - frequencyMap[a]`. -/
def rankedWords (env : Env) (line : Str) (frequencyMap : FreqMap)
    (ignoredWords priorityWords : List Str) : List Str :=
  (candidateWords env line frequencyMap ignoredWords priorityWords).insertionSort
    (fun a b => frequencyMap.count b ≤ frequencyMap.count a)

/-- The value of `finalWords`. -/
def finalWords (env : Env) (line : Str) (frequencyMap : FreqMap)
    (ignoredWords priorityWords : List Str) : List Str :=
  priorityInLine env line ignoredWords priorityWords ++
    rankedWords env line frequencyMap ignoredWords priorityWords

/-- The callback `word => word.charAt(0).toUpperCase() + word.slice(1)`. -/
def capitalize (env : Env) (word : Str) : Str :=
  toUpperCaseChar env (word.take 1) ++ word.drop 1

/-- The words of the label: `finalWords.slice(0, maxWords).map(capitalize)`. -/
def labelWords (env : Env) (line : Str) (frequencyMap : FreqMap) (maxWords : Nat)
    (ignoredWords priorityWords : List Str) : List Str :=
  ((finalWords env line frequencyMap ignoredWords priorityWords).take maxWords).map
    (capitalize env)

/-- The function `extractTopWords(line, frequencyMap, maxWords, ignoredWords, priorityWords)`. -/
def extractTopWords (env : Env) (line : Str) (frequencyMap : FreqMap) (maxWords : Nat)
    (ignoredWords priorityWords : List Str) : Str :=
  joinSpace (labelWords env line frequencyMap maxWords ignoredWords priorityWords)

/-- The value of `cleanedData` in `processDataset`. -/
def cleanedData (env : Env) (dataset : List Str) (priorityWords : List Str) : List Str :=
  dataset.map (fun line => cleanText env line priorityWords)

/-- The function `processDataset(dataset, ignoredWords, priorityWords)`. -/
def processDataset (env : Env) (dataset : List Str) (ignoredWords priorityWords : List Str) :
    List Str :=
  let frequencyMap := buildWordFrequencyMap env (cleanedData env dataset priorityWords) ignoredWords
  (cleanedData env dataset priorityWords).map (fun line =>
    extractTopWords env line frequencyMap 4 ignoredWords priorityWords)

/-! ## Vocabulary of the statements -/

/-- A lower-case vowel. -/
abbrev IsVowel (c : Nat) : Prop := c ∈ js "aeiou"

/-- A lower-case letter other than `a`, `e`, `i`, `o`, `u`. -/
abbrev IsConsonant (c : Nat) : Prop := 97 ≤ c ∧ c ≤ 122 ∧ c ∉ js "aeiou"

/-- An ASCII letter, of either case. -/
abbrev IsAsciiLetter (c : Nat) : Prop := (65 ≤ c ∧ c ≤ 90) ∨ (97 ≤ c ∧ c ≤ 122)

/-- The text holds a run of at least four consecutive code units with the property. -/
def HasRun4 (P : Nat → Prop) (word : Str) : Prop :=
  ∃ pre run post, word = pre ++ run ++ post ∧ 4 ≤ run.length ∧ ∀ c ∈ run, P c

/-- A clean string: lower-case letters `a`-`z` and single spaces, no space at either end. -/
abbrev IsClean (s : Str) : Prop :=
  (∀ c ∈ s, (97 ≤ c ∧ c ≤ 122) ∨ c = 32) ∧ ¬ [32, 32] <:+: s ∧
    s.head? ≠ some 32 ∧ s.getLast? ≠ some 32

/-- An environment for the examples: code units from 128 upwards keep their case, the tagger
reports every word as a verb, and `the` and `a` are the stop-words. -/
def verbEnv : Env :=
  ⟨fun _ c _ => [c], fun c => [c], fun _ => false, fun _ => true, fun _ => false,
   fun word => decide (word ∈ [js "the", js "a"])⟩

/-- The word `applyPluralCorrection` puts in the place of `word`. -/
def correctedWord (words : List Str) (word : Str) : Str :=
  if singularForm word ∈ words ∧ getPluralForm word ∈ words ∧ getPluralForm word ≠ word
  then getPluralForm word else word

/-- A capitalised word: an upper-case letter, then lower-case letters. -/
def IsCapitalized (word : Str) : Prop :=
  ∃ c rest, word = c :: rest ∧ (65 ≤ c ∧ c ≤ 90) ∧ ∀ d ∈ rest, 97 ≤ d ∧ d ≤ 122

/-- The words of the label that are no priority words, before the capitalisation, in the
order of the label. -/
def rankedInLabel (env : Env) (line : Str) (frequencyMap : FreqMap) (maxWords : Nat)
    (ignoredWords priorityWords : List Str) : List Str :=
  ((finalWords env line frequencyMap ignoredWords priorityWords).take maxWords).filter
    (fun word => decide (word ∉ priorityWords))

/-- The value of `frequencyMap` in `processDataset`: `buildWordFrequencyMap` is handed
`cleanedData`, the records already cleaned with the priority list. -/
def frequencyMapOf (env : Env) (dataset : List Str) (ignoredWords priorityWords : List Str) :
    FreqMap :=
  buildWordFrequencyMap env (cleanedData env dataset priorityWords) ignoredWords

/-- How often `word` stands in a token list. -/
def occurrences (word : Str) (tokens : List Str) : Nat :=
  (tokens.filter (fun token => decide (token = word))).length

/-- The tokens of a record that `buildWordFrequencyMap` looks at: the pieces of the cleaned
text that are no ignored words and no stop-words. -/
def keptTokens (env : Env) (ignoredWords : List Str) (line : Str) : List Str :=
  removeStopwords env
    ((splitWs (cleanText env line [])).filter (fun word => decide (word ∉ ignoredWords)))

/-- The value of `resultWithOriginal` (Output Artifact 1): the pairs of a record and its
label.  The two lists have the same length, so `processedData[index]` is always there. -/
def resultWithOriginal (env : Env) (productData : List Str) (ignoredWords priorityWords : List Str) :
    List (Str × Str) :=
  productData.zip (processDataset env productData ignoredWords priorityWords)

/-- The value of `resultOnlyProcessed` (Output Artifact 2): `[...new Set(processedData)]`. -/
def resultOnlyProcessed (env : Env) (productData : List Str)
    (ignoredWords priorityWords : List Str) : List Str :=
  uniq (processDataset env productData ignoredWords priorityWords)

/-- The declared priority words found in a record: the entries of the priority list, in the
order of the list, that equal, ignoring case, a token of the record left by the filters and
the plural correction. -/
def priorityFound (env : Env) (line : Str) (ignoredWords priorityWords : List Str) : List Str :=
  priorityWords.filter
    (fun p => decide (toLowerCase env p ∈ uniqueWords env line ignoredWords priorityWords))

/-- The tokens of a record to be ranked: those that equal no priority word, ignoring case, and
have a count in the frequency map; in the order of first occurrence. -/
def rankedCandidates (env : Env) (line : Str) (frequencyMap : FreqMap)
    (ignoredWords priorityWords : List Str) : List Str :=
  (uniqueWords env line ignoredWords priorityWords).filter
    (fun w => decide (∀ p ∈ priorityWords, toLowerCase env p ≠ w) &&
      decide (frequencyMap.count w ≠ 0))

/-! # Theorems -/

/-! ## White space -/

theorem isSpace_32 : isSpace 32 = true := by decide

theorem isLowerAZ_iff (c : Nat) : isLowerAZ c = true ↔ 97 ≤ c ∧ c ≤ 122 := by
  simp [isLowerAZ]

theorem not_isSpace_of_isLowerAZ {c : Nat} (h : isLowerAZ c = true) : isSpace c = false := by
  rw [isLowerAZ_iff] at h
  simp only [isSpace, Bool.or_eq_false_iff, Bool.and_eq_false_iff, beq_eq_false_iff_ne,
    decide_eq_false_iff_not]
  omega

theorem mem_replaceNonLetters {s : Str} {c : Nat} (h : c ∈ replaceNonLetters s) :
    isLowerAZ c = true ∨ isSpace c = true := by
  simp only [replaceNonLetters, List.mem_map] at h
  obtain ⟨d, -, rfl⟩ := h
  by_cases hd : (isLowerAZ d || isSpace d) = true
  · rw [if_pos hd]
    simpa using hd
  · rw [if_neg hd]
    exact Or.inr isSpace_32

theorem collapseWs_cons_of_not_space {c : Nat} (cs : Str) (h : isSpace c = false) :
    collapseWs (c :: cs) = c :: collapseWs cs := by
  simp [collapseWs, h]

theorem mem_collapseWs : ∀ (s : Str) (c : Nat), c ∈ collapseWs s →
    c = 32 ∨ (c ∈ s ∧ isSpace c = false)
  | [], c, h => by simp [collapseWs] at h
  | [x], c, h => by
    by_cases hx : isSpace x = true
    · simp [collapseWs, hx] at h
      exact Or.inl h
    · simp [collapseWs, hx] at h
      subst h
      exact Or.inr ⟨by simp, by simpa using hx⟩
  | x :: y :: rest, c, h => by
    by_cases hx : isSpace x = true
    · by_cases hy : isSpace y = true
      · have h' : c ∈ collapseWs (y :: rest) := by
          simpa [collapseWs, hx, hy] using h
        rcases mem_collapseWs (y :: rest) c h' with h1 | ⟨h1, h2⟩
        · exact Or.inl h1
        · exact Or.inr ⟨List.mem_cons_of_mem _ h1, h2⟩
      · have h' : c = 32 ∨ c ∈ collapseWs (y :: rest) := by
          simpa [collapseWs, hx, hy] using h
        rcases h' with h1 | h1
        · exact Or.inl h1
        · rcases mem_collapseWs (y :: rest) c h1 with h1 | ⟨h1, h2⟩
          · exact Or.inl h1
          · exact Or.inr ⟨List.mem_cons_of_mem _ h1, h2⟩
    · have hx' : isSpace x = false := by simpa using hx
      rw [collapseWs_cons_of_not_space _ hx', List.mem_cons] at h
      rcases h with rfl | h1
      · exact Or.inr ⟨by simp, hx'⟩
      · rcases mem_collapseWs (y :: rest) c h1 with h1 | ⟨h1, h2⟩
        · exact Or.inl h1
        · exact Or.inr ⟨List.mem_cons_of_mem _ h1, h2⟩

/-- No two spaces are neighbours after `collapseWs`. -/
theorem chain_collapseWs : ∀ (s : Str),
    List.Chain' (fun a b => ¬ (a = 32 ∧ b = 32)) (collapseWs s)
  | [] => by simp [collapseWs]
  | [x] => by
    by_cases hx : isSpace x = true <;> simp [collapseWs, hx]
  | x :: y :: rest => by
    have ih := chain_collapseWs (y :: rest)
    by_cases hx : isSpace x = true
    · by_cases hy : isSpace y = true
      · simpa [collapseWs, hx, hy] using ih
      · have hy' : isSpace y = false := by simpa using hy
        have e : collapseWs (x :: y :: rest) = 32 :: y :: collapseWs rest := by
          rw [← collapseWs_cons_of_not_space rest hy']
          simp [collapseWs, hx, hy]
        rw [e, List.chain'_cons]
        refine ⟨?_, ?_⟩
        · rintro ⟨-, rfl⟩
          exact absurd isSpace_32 (by simp [hy'])
        · rw [← collapseWs_cons_of_not_space rest hy']
          exact ih
    · have hx' : isSpace x = false := by simpa using hx
      rw [collapseWs_cons_of_not_space _ hx', List.chain'_cons']
      refine ⟨?_, ih⟩
      rintro b - ⟨rfl, -⟩
      exact absurd isSpace_32 (by simp [hx'])

/-! ## trim -/

theorem trim_isInfix (s : Str) : trim s <:+: s :=
  (List.rdropWhile_prefix isSpace _).isInfix.trans (List.dropWhile_suffix isSpace).isInfix

theorem head?_trim (s : Str) (c : Nat) (h : (trim s).head? = some c) : isSpace c = false := by
  unfold trim at h
  obtain ⟨t, ht⟩ := List.rdropWhile_prefix isSpace (s.dropWhile isSpace)
  have h2 : (s.dropWhile isSpace).head? = some c := by
    rw [← ht]
    cases hr : List.rdropWhile isSpace (List.dropWhile isSpace s) with
    | nil => rw [hr] at h; simp at h
    | cons a l => rw [hr] at h; simpa using h
  have h3 := List.head?_dropWhile_not isSpace s
  rw [h2] at h3
  simpa using h3

theorem getLast?_trim (s : Str) (c : Nat) (h : (trim s).getLast? = some c) :
    isSpace c = false := by
  unfold trim at h
  have hne : List.rdropWhile isSpace (s.dropWhile isSpace) ≠ [] := by
    intro h0
    rw [h0] at h
    simp at h
  have h1 := List.rdropWhile_last_not (p := isSpace) (l := s.dropWhile isSpace) hne
  rw [List.getLast?_eq_getLast _ hne] at h
  simp only [Option.some.injEq] at h
  rw [h] at h1
  simpa using h1

theorem trim_eq_self (s : Str) (hhead : ∀ c, s.head? = some c → isSpace c = false)
    (hlast : ∀ c, s.getLast? = some c → isSpace c = false) : trim s = s := by
  unfold trim
  have h1 : s.dropWhile isSpace = s := by
    cases s with
    | nil => rfl
    | cons a l =>
      have := hhead a rfl
      simp [List.dropWhile_cons, this]
  rw [h1, List.rdropWhile_eq_self_iff]
  intro hl
  have := hlast _ (List.getLast?_eq_getLast _ hl)
  simp [this]

/-- The last three steps of `cleanText` give a clean string, whatever they are applied to. -/
theorem isClean_of_steps (t : Str) : IsClean (trim (collapseWs (replaceNonLetters t))) := by
  have hmem : ∀ c ∈ collapseWs (replaceNonLetters t), (97 ≤ c ∧ c ≤ 122) ∨ c = 32 := by
    intro c hc
    rcases mem_collapseWs _ c hc with h | ⟨h1, h2⟩
    · exact Or.inr h
    · rcases mem_replaceNonLetters h1 with h3 | h3
      · exact Or.inl ((isLowerAZ_iff c).mp h3)
      · rw [h2] at h3
        exact absurd h3 (by simp)
  have hinf := trim_isInfix (collapseWs (replaceNonLetters t))
  refine ⟨fun c hc => hmem c (hinf.subset hc), ?_, ?_, ?_⟩
  · intro h
    have := List.Chain'.infix (chain_collapseWs (replaceNonLetters t)) (h.trans hinf)
    rw [List.chain'_pair] at this
    exact this ⟨rfl, rfl⟩
  · intro h
    exact absurd isSpace_32 (by simp [head?_trim _ 32 h])
  · intro h
    exact absurd isSpace_32 (by simp [getLast?_trim _ 32 h])

/-- C4: the string `cleanText` returns holds only the letters `a`-`z` and single spaces: no
other code unit, no two spaces in a row, no space at the start or the end. -/
theorem cleanText_isClean (env : Env) (text : Str) (priorityWords : List Str) :
    (∀ c ∈ cleanText env text priorityWords, (97 ≤ c ∧ c ≤ 122) ∨ c = 32) ∧
    ¬ [32, 32] <:+: cleanText env text priorityWords ∧
    (cleanText env text priorityWords).head? ≠ some 32 ∧
    (cleanText env text priorityWords).getLast? ≠ some 32 := by
  unfold cleanText
  exact isClean_of_steps _

/-- C4 on a text with a tab, doubled spaces, digits and punctuation. -/
theorem cleanText_isClean_witness :
    cleanText verbEnv (js "  Great\t(Organic)  product 100% !! ") [] = js "great product" ∧
    ¬ [32, 32] <:+: cleanText verbEnv (js "  Great\t(Organic)  product 100% !! ") [] :=
  ⟨by decide, (cleanText_isClean verbEnv (js "  Great\t(Organic)  product 100% !! ") []).2.1⟩

/-! ## Text without brackets, upper-case letters or stray white space -/

theorem replaceBracketsFrom_append_of_no_open (env : Env) (priorityWords : List Str) :
    ∀ (s rest : Str), (∀ c ∈ s, closeOf c = none) →
      replaceBracketsFrom env priorityWords 0 (s ++ rest) =
        s ++ replaceBracketsFrom env priorityWords 0 rest
  | [], rest, _ => rfl
  | c :: cs, rest, h => by
    have hc : closeOf c = none := h c (by simp)
    have ih := replaceBracketsFrom_append_of_no_open env priorityWords cs rest
      (fun d hd => h d (List.mem_cons_of_mem _ hd))
    have e : replaceBracketsFrom env priorityWords 0 (c :: (cs ++ rest)) =
        c :: replaceBracketsFrom env priorityWords 0 (cs ++ rest) := by
      simp only [replaceBracketsFrom, hc]
    rw [List.cons_append, e, ih, List.cons_append]

theorem toLowerCaseFrom_append_ascii (env : Env) :
    ∀ (s before rest : Str), (∀ c ∈ s, c < 128) →
      toLowerCaseFrom env before (s ++ rest) =
        s.map asciiLower ++ toLowerCaseFrom env (before ++ s) rest
  | [], before, rest, _ => by simp
  | c :: cs, before, rest, h => by
    have hc : c < 128 := h c (by simp)
    have ih := toLowerCaseFrom_append_ascii env cs (before ++ [c]) rest
      (fun d hd => h d (List.mem_cons_of_mem _ hd))
    have e : toLowerCaseFrom env before (c :: (cs ++ rest)) =
        asciiLower c :: toLowerCaseFrom env (before ++ [c]) (cs ++ rest) := by
      simp only [toLowerCaseFrom, lowerUnit, if_pos hc, List.singleton_append]
    rw [List.cons_append, e, ih, List.map_cons, List.cons_append, List.append_assoc,
      List.singleton_append]

theorem toLowerCase_ascii (env : Env) (s : Str) (h : ∀ c ∈ s, c < 128) :
    toLowerCase env s = s.map asciiLower := by
  have := toLowerCaseFrom_append_ascii env s [] [] h
  simpa [toLowerCase, toLowerCaseFrom] using this

theorem map_asciiLower_of_no_upper (s : Str) (h : ∀ c ∈ s, ¬ (65 ≤ c ∧ c ≤ 90)) :
    s.map asciiLower = s := by
  conv_rhs => rw [← List.map_id s]
  apply List.map_congr_left
  intro c hc
  simp [asciiLower, h c hc]

theorem replaceNonLetters_of_clean (s : Str)
    (h : ∀ c ∈ s, isLowerAZ c = true ∨ isSpace c = true) : replaceNonLetters s = s := by
  unfold replaceNonLetters
  conv_rhs => rw [← List.map_id s]
  apply List.map_congr_left
  intro c hc
  have := h c hc
  simp only [id]
  rw [if_pos (by simpa using this)]

theorem collapseWs_of_single_spaces : ∀ (s : Str),
    (∀ c ∈ s, isSpace c = true → c = 32) → ¬ [32, 32] <:+: s → collapseWs s = s
  | [], _, _ => rfl
  | [x], h, _ => by
    by_cases hx : isSpace x = true
    · simp [collapseWs, hx, h x (by simp) hx]
    · simp [collapseWs, hx]
  | x :: y :: rest, h, hno => by
    have ih := collapseWs_of_single_spaces (y :: rest)
      (fun c hc => h c (List.mem_cons_of_mem _ hc))
      (fun hinf => hno (hinf.trans (List.suffix_cons x _).isInfix))
    by_cases hx : isSpace x = true
    · have hx32 : x = 32 := h x (by simp) hx
      have hy : isSpace y = false := by
        by_contra hy
        have hy' : isSpace y = true := by simpa using hy
        have hy32 : y = 32 := h y (by simp) hy'
        subst hx32 hy32
        exact hno ⟨[], rest, by simp⟩
      have e : collapseWs (x :: y :: rest) = 32 :: collapseWs (y :: rest) := by
        simp [collapseWs, hx, hy]
      rw [e, ih, hx32]
    · have hx' : isSpace x = false := by simpa using hx
      rw [collapseWs_cons_of_not_space _ hx', ih]

/-- The steps of `cleanText` leave a clean string as it is. -/
theorem cleanText_of_isClean (env : Env) (s : Str) (priorityWords : List Str) (hs : IsClean s) :
    cleanText env s priorityWords = s := by
  obtain ⟨hmem, hno, hhead, hlast⟩ := hs
  have h1 : replaceBrackets env priorityWords s = s := by
    have := replaceBracketsFrom_append_of_no_open env priorityWords s [] (by
      intro c hc
      have := hmem c hc
      simp only [closeOf]
      rw [if_neg (by omega), if_neg (by omega), if_neg (by omega)])
    simpa [replaceBrackets, replaceBracketsFrom] using this
  have h2 : toLowerCase env s = s := by
    rw [toLowerCase_ascii env s (fun c hc => by have := hmem c hc; omega)]
    exact map_asciiLower_of_no_upper s (fun c hc => by have := hmem c hc; omega)
  have hcls : ∀ c ∈ s, isLowerAZ c = true ∨ isSpace c = true := by
    intro c hc
    rcases hmem c hc with h | h
    · exact Or.inl ((isLowerAZ_iff c).mpr h)
    · exact Or.inr (h ▸ isSpace_32)
  have h3 : replaceNonLetters s = s := replaceNonLetters_of_clean s hcls
  have h4 : collapseWs s = s := by
    apply collapseWs_of_single_spaces s _ hno
    intro c hc hsp
    rcases hmem c hc with h | h
    · have := not_isSpace_of_isLowerAZ ((isLowerAZ_iff c).mpr h)
      rw [hsp] at this
      exact absurd this (by simp)
    · exact h
  have hns : ∀ c ∈ s, c ≠ 32 → isSpace c = false := by
    intro c hc hne
    rcases hmem c hc with h | h
    · exact not_isSpace_of_isLowerAZ ((isLowerAZ_iff c).mpr h)
    · exact absurd h hne
  have h5 : trim s = s := by
    apply trim_eq_self
    · intro c hc
      apply hns c (List.mem_of_mem_head? hc)
      rintro rfl
      exact hhead hc
    · intro c hc
      apply hns c (List.mem_of_mem_getLast? hc)
      rintro rfl
      exact hlast hc
  unfold cleanText
  rw [h1, h2, h3, h4, h5]

/-- C5: `cleanText` returns a clean string (lower-case letters separated by single spaces)
unchanged, whatever the priority list; hence cleaning a second time, with any priority list,
changes nothing. -/
theorem cleanText_idempotent (env : Env) (t : Str) (p q : List Str) :
    (∀ s : Str, IsClean s → cleanText env s p = s) ∧
    cleanText env (cleanText env t p) q = cleanText env t p :=
  ⟨fun s hs => cleanText_of_isClean env s p hs,
   cleanText_of_isClean env _ q (isClean_of_steps _)⟩

/-- C5 on the clean string `great product`. -/
theorem cleanText_idempotent_witness :
    IsClean (js "great product") ∧
    cleanText verbEnv (js "great product") [js "Organic"] = js "great product" :=
  ⟨by decide, (cleanText_idempotent verbEnv [] [js "Organic"] []).1 (js "great product")
    (by decide)⟩

/-! ## A bracketed span -/

theorem lazyUpTo_append (close : Nat) (post : Str) :
    ∀ (inner : Str), close ∉ inner → (∀ c ∈ inner, isLineTerminator c = false) →
      lazyUpTo close (inner ++ close :: post) = some inner
  | [], _, _ => by simp [lazyUpTo]
  | c :: cs, hc, hl => by
    have h1 : c ≠ close := fun h => hc (by simp [h])
    have h2 : isLineTerminator c = false := hl c (by simp)
    have ih := lazyUpTo_append close post cs (fun h => hc (List.mem_cons_of_mem _ h))
      (fun d hd => hl d (List.mem_cons_of_mem _ hd))
    have e : lazyUpTo close (c :: (cs ++ close :: post)) =
        (lazyUpTo close (cs ++ close :: post)).map (fun inner => c :: inner) := by
      simp only [lazyUpTo, if_neg h1, h2, Bool.false_eq_true, if_false]
    rw [List.cons_append, e, ih, Option.map_some']

theorem replaceBracketsFrom_skip (env : Env) (priorityWords : List Str) :
    ∀ (n : Nat) (s : Str), replaceBracketsFrom env priorityWords n s =
      replaceBracketsFrom env priorityWords 0 (s.drop n)
  | 0, s => by simp
  | n + 1, [] => by simp [replaceBracketsFrom]
  | n + 1, c :: cs => by
    have ih := replaceBracketsFrom_skip env priorityWords n cs
    simp only [replaceBracketsFrom, List.drop_succ_cons, ih]

/-- The scan at a bracketed span: the span is replaced and the scan goes on after it. -/
theorem replaceBracketsFrom_span (env : Env) (priorityWords : List Str) (op cl : Nat)
    (inner post : Str) (hpair : closeOf op = some cl) (hcl : cl ∉ inner)
    (hlt : ∀ c ∈ inner, isLineTerminator c = false) :
    replaceBracketsFrom env priorityWords 0 (op :: (inner ++ cl :: post)) =
      bracketReplacement env priorityWords inner ++
        replaceBracketsFrom env priorityWords 0 post := by
  have e : replaceBracketsFrom env priorityWords 0 (op :: (inner ++ cl :: post)) =
      bracketReplacement env priorityWords inner ++
        replaceBracketsFrom env priorityWords (inner.length + 1) (inner ++ cl :: post) := by
    simp only [replaceBracketsFrom, hpair, lazyUpTo_append cl post inner hcl hlt]
  rw [e, replaceBracketsFrom_skip]
  have : (inner ++ cl :: post).drop (inner.length + 1) = post := by
    rw [List.drop_append_eq_append_drop]
    simp
  rw [this]

theorem closeOf_eq_none {c : Nat} (h : c ≠ 40 ∧ c ≠ 91 ∧ c ≠ 123) : closeOf c = none := by
  simp [closeOf, h.1, h.2.1, h.2.2]

/-- The first `replace` of `cleanText` on a text whose first bracket is a closed span. -/
theorem replaceBrackets_span (env : Env) (priorityWords : List Str) (op cl : Nat)
    (pre inner post : Str) (hpair : closeOf op = some cl)
    (hpre : ∀ c ∈ pre, c ≠ 40 ∧ c ≠ 91 ∧ c ≠ 123) (hcl : cl ∉ inner)
    (hlt : ∀ c ∈ inner, isLineTerminator c = false) :
    replaceBrackets env priorityWords (pre ++ [op] ++ inner ++ [cl] ++ post) =
      pre ++ bracketReplacement env priorityWords inner ++
        replaceBrackets env priorityWords post := by
  unfold replaceBrackets
  have e : pre ++ [op] ++ inner ++ [cl] ++ post = pre ++ (op :: (inner ++ cl :: post)) := by
    simp
  rw [e, replaceBracketsFrom_append_of_no_open env priorityWords pre _
    (fun c hc => closeOf_eq_none (hpre c hc)),
    replaceBracketsFrom_span env priorityWords op cl inner post hpair hcl hlt,
    List.append_assoc]

theorem bracketReplacement_nil (env : Env) (inner : Str) : bracketReplacement env [] inner = [] := by
  simp [bracketReplacement]

/-- C7: with an empty priority list a bracketed span goes away entirely.  For each pair of
delimiters `( )`, `[ ]`, `{ }`: when no opening delimiter stands in `pre` and `inner` holds
neither the closing delimiter of the pair nor a line terminator, cleaning
`pre + open + inner + close + post` gives what cleaning `pre + post` gives. -/
theorem cleanText_drops_bracketed_span (env : Env) (op cl : Nat) (pre inner post : Str)
    (hpair : (op, cl) ∈ [(40, 41), (91, 93), (123, 125)])
    (hpre : ∀ c ∈ pre, c ≠ 40 ∧ c ≠ 91 ∧ c ≠ 123) (hcl : cl ∉ inner)
    (hlt : ∀ c ∈ inner, isLineTerminator c = false) :
    cleanText env (pre ++ [op] ++ inner ++ [cl] ++ post) [] = cleanText env (pre ++ post) [] := by
  have hp : closeOf op = some cl := by
    simp only [List.mem_cons, Prod.mk.injEq, List.mem_singleton, List.not_mem_nil, or_false] at hpair
    rcases hpair with ⟨rfl, rfl⟩ | ⟨rfl, rfl⟩ | ⟨rfl, rfl⟩ <;> rfl
  have h1 := replaceBrackets_span env [] op cl pre inner post hp hpre hcl hlt
  have h2 : replaceBrackets env [] (pre ++ post) = pre ++ replaceBrackets env [] post :=
    replaceBracketsFrom_append_of_no_open env [] pre post
      (fun c hc => closeOf_eq_none (hpre c hc))
  unfold cleanText
  rw [h1, h2, bracketReplacement_nil, List.append_nil]

/-- The example of C7: `"Great (Organic) product"` cleaned with no priority word is
`"great product"`. -/
theorem cleanText_drops_bracketed_span_witness :
    cleanText verbEnv (js "Great (Organic) product") [] =
      cleanText verbEnv (js "Great  product") [] ∧
    cleanText verbEnv (js "Great (Organic) product") [] = js "great product" :=
  ⟨cleanText_drops_bracketed_span verbEnv 40 41 (js "Great ") (js "Organic") (js " product")
    (by decide) (by decide) (by decide) (by decide), by decide⟩

/-! ## Pieces of a split -/

theorem splitWs_ne_nil : ∀ (s : Str), splitWs s ≠ []
  | [] => by simp [splitWs]
  | [x] => by
    by_cases hx : isSpace x = true <;> simp [splitWs, hx]
  | x :: y :: rest => by
    have ih := splitWs_ne_nil (y :: rest)
    by_cases hx : isSpace x = true
    · by_cases hy : isSpace y = true
      · simpa [splitWs, hx, hy] using ih
      · simp [splitWs, hx, hy]
    · have hx' : isSpace x = false := by simpa using hx
      simp only [splitWs, hx', Bool.false_eq_true, if_false]
      split <;> simp

theorem splitWs_cons_of_not_space {c : Nat} (cs : Str) (h : isSpace c = false) :
    splitWs (c :: cs) = (c :: (splitWs cs).headD []) :: (splitWs cs).tail := by
  conv_lhs => rw [splitWs.eq_def]
  simp only [h, Bool.false_eq_true, if_false]
  cases hs : splitWs cs with
  | nil => exact absurd hs (splitWs_ne_nil cs)
  | cons w ws => simp

/-- No piece of `s.split(/\s+/)` holds white space. -/
theorem no_space_of_mem_splitWs : ∀ (s piece : Str), piece ∈ splitWs s →
    ∀ c ∈ piece, isSpace c = false
  | [], piece, h => by
    simp [splitWs] at h
    subst h
    simp
  | [x], piece, h => by
    by_cases hx : isSpace x = true
    · simp [splitWs, hx] at h
      subst h
      simp
    · simp [splitWs, hx] at h
      subst h
      simpa using hx
  | x :: y :: rest, piece, h => by
    have ih := no_space_of_mem_splitWs (y :: rest)
    by_cases hx : isSpace x = true
    · by_cases hy : isSpace y = true
      · exact ih piece (by simpa [splitWs, hx, hy] using h)
      · have h' : piece = [] ∨ piece ∈ splitWs (y :: rest) := by
          simpa [splitWs, hx, hy] using h
        rcases h' with rfl | h'
        · simp
        · exact ih piece h'
    · have hx' : isSpace x = false := by simpa using hx
      rw [splitWs_cons_of_not_space _ hx', List.mem_cons] at h
      rcases h with rfl | h
      · intro c hc
        rw [List.mem_cons] at hc
        rcases hc with rfl | hc
        · exact hx'
        · cases hs : splitWs (y :: rest) with
          | nil => rw [hs] at hc; simp at hc
          | cons w ws =>
            rw [hs] at hc
            exact ih w (by rw [hs]; simp) c (by simpa using hc)
      · exact ih piece (List.mem_of_mem_tail h)

theorem trim_of_no_space (s : Str) (h : ∀ c ∈ s, isSpace c = false) : trim s = s :=
  trim_eq_self s (fun c hc => h c (List.mem_of_mem_head? hc))
    (fun c hc => h c (List.mem_of_mem_getLast? hc))

/-! ## What survives the later steps of `cleanText` -/

theorem infix_joinSpace : ∀ (ws : List Str) (w : Str), w ∈ ws → w <:+: joinSpace ws
  | [], w, h => by simp at h
  | [x], w, h => by
    simp at h
    subst h
    simp [joinSpace, List.intercalate]
  | x :: y :: rest, w, h => by
    have e : joinSpace (x :: y :: rest) = x ++ 32 :: joinSpace (y :: rest) := by
      simp [joinSpace, List.intercalate]
    rw [e]
    rw [List.mem_cons] at h
    rcases h with rfl | h
    · exact (List.prefix_append _ _).isInfix
    · exact (infix_joinSpace (y :: rest) w h).trans
        ((List.suffix_cons 32 _).trans (List.suffix_append _ _)).isInfix

theorem infix_toLowerCaseFrom (env : Env) (x post : Str) (hx : ∀ c ∈ x, c < 128) :
    ∀ (pre before : Str), x.map asciiLower <:+: toLowerCaseFrom env before (pre ++ x ++ post)
  | [], before => by
    rw [List.nil_append, toLowerCaseFrom_append_ascii env x before post hx]
    exact (List.prefix_append _ _).isInfix
  | c :: pre, before => by
    have ih := infix_toLowerCaseFrom env x post hx pre (before ++ [c])
    have e : toLowerCaseFrom env before (c :: (pre ++ x ++ post)) =
        lowerUnit env before c (pre ++ x ++ post) ++
          toLowerCaseFrom env (before ++ [c]) (pre ++ x ++ post) := by
      simp only [toLowerCaseFrom]
    rw [List.cons_append, List.cons_append, e]
    exact ih.trans (List.suffix_append _ _).isInfix

theorem infix_toLowerCase (env : Env) (x s : Str) (hx : ∀ c ∈ x, c < 128) (h : x <:+: s) :
    x.map asciiLower <:+: toLowerCase env s := by
  obtain ⟨pre, post, rfl⟩ := h
  exact infix_toLowerCaseFrom env x post hx pre []

theorem infix_replaceNonLetters (x s : Str) (hx : ∀ c ∈ x, isLowerAZ c = true) (h : x <:+: s) :
    x <:+: replaceNonLetters s := by
  obtain ⟨pre, post, rfl⟩ := h
  refine ⟨replaceNonLetters pre, replaceNonLetters post, ?_⟩
  have e : replaceNonLetters x = x := by
    unfold replaceNonLetters
    conv_rhs => rw [← List.map_id x]
    apply List.map_congr_left
    intro c hc
    simp [hx c hc]
  simp only [replaceNonLetters, List.map_append] at e ⊢
  rw [e]

theorem collapseWs_suffix_cons (c : Nat) : ∀ (s : Str), collapseWs s <:+ collapseWs (c :: s)
  | [] => by
    by_cases hc : isSpace c = true <;> simp [collapseWs, hc]
  | d :: rest => by
    by_cases hc : isSpace c = true
    · by_cases hd : isSpace d = true
      · have e : collapseWs (c :: d :: rest) = collapseWs (d :: rest) := by
          rw [collapseWs]
          simp [hc, hd]
        rw [e]
      · have e : collapseWs (c :: d :: rest) = 32 :: collapseWs (d :: rest) := by
          rw [collapseWs]
          simp [hc, hd]
        rw [e]
        exact List.suffix_cons _ _
    · have hc' : isSpace c = false := by simpa using hc
      rw [collapseWs_cons_of_not_space _ hc']
      exact List.suffix_cons _ _

theorem collapseWs_append_of_no_space (post : Str) : ∀ (x : Str),
    (∀ c ∈ x, isSpace c = false) → collapseWs (x ++ post) = x ++ collapseWs post
  | [], _ => rfl
  | c :: cs, h => by
    rw [List.cons_append, collapseWs_cons_of_not_space _ (h c (by simp)),
      collapseWs_append_of_no_space post cs (fun d hd => h d (List.mem_cons_of_mem _ hd)),
      List.cons_append]

theorem infix_collapseWs (x : Str) (hx : ∀ c ∈ x, isSpace c = false) (post : Str) :
    ∀ (pre : Str), x <:+: collapseWs (pre ++ x ++ post)
  | [] => by
    rw [List.nil_append, collapseWs_append_of_no_space post x hx]
    exact (List.prefix_append _ _).isInfix
  | c :: pre => by
    have ih := infix_collapseWs x hx post pre
    rw [List.cons_append, List.cons_append]
    exact ih.trans (collapseWs_suffix_cons c _).isInfix

theorem infix_dropWhile (x : Str) (post : Str) (hx : ∀ c, x.head? = some c → isSpace c = false)
    (hne : x ≠ []) : ∀ (pre : Str), x <:+: (pre ++ x ++ post).dropWhile isSpace
  | [] => by
    obtain ⟨c, cs, rfl⟩ := List.exists_cons_of_ne_nil hne
    have := hx c rfl
    simp only [List.nil_append, List.cons_append, List.dropWhile_cons, this,
      Bool.false_eq_true, if_false]
    exact (List.prefix_append (c :: cs) post).isInfix
  | d :: pre => by
    have ih := infix_dropWhile x post hx hne pre
    rw [List.cons_append, List.cons_append, List.dropWhile_cons]
    split
    · exact ih
    · exact ⟨d :: pre, post, by simp⟩

theorem infix_trim (x s : Str) (hx : ∀ c ∈ x, isSpace c = false) (h : x <:+: s) :
    x <:+: trim s := by
  by_cases hne : x = []
  · subst hne
    exact ⟨[], trim s, by simp⟩
  · obtain ⟨pre, post, rfl⟩ := h
    have h1 : x <:+: (pre ++ x ++ post).dropWhile isSpace :=
      infix_dropWhile x post (fun c hc => hx c (List.mem_of_mem_head? hc)) hne pre
    obtain ⟨pre', post', e⟩ := h1
    have hne' : x.reverse ≠ [] := by simpa using hne
    have h2 := infix_dropWhile x.reverse pre'.reverse
      (fun c hc => hx c (by
        have := List.mem_of_mem_head? hc
        simpa using this)) hne' post'.reverse
    unfold trim
    rw [← e, List.rdropWhile, ← List.reverse_infix]
    simpa using h2

/-- A word of letters `a`-`z` that stands in the text after the first `replace` of
`cleanText` stands in the result. -/
theorem infix_cleanText_steps (env : Env) (x s : Str) (hx : ∀ c ∈ x, isLowerAZ c = true)
    (h : x <:+: s) :
    x <:+: trim (collapseWs (replaceNonLetters (toLowerCase env s))) := by
  have hx128 : ∀ c ∈ x, c < 128 := fun c hc => by
    have := (isLowerAZ_iff c).mp (hx c hc)
    omega
  have hxs : ∀ c ∈ x, isSpace c = false := fun c hc => not_isSpace_of_isLowerAZ (hx c hc)
  have h1 := infix_toLowerCase env x s hx128 h
  rw [map_asciiLower_of_no_upper x (fun c hc => by
    have := (isLowerAZ_iff c).mp (hx c hc)
    omega)] at h1
  have h2 := infix_replaceNonLetters x _ hx h1
  obtain ⟨pre, post, e⟩ := h2
  have h3 := infix_collapseWs x hxs post pre
  rw [e] at h3
  exact infix_trim x _ hxs h3

/-- C6: a priority word inside round brackets survives cleaning.  When no opening delimiter
stands in `pre`, `inner` holds neither `)` nor a line terminator, and some piece of `inner`
split at white space equals, ignoring case, an entry `w` of the priority list that consists
of ASCII letters only, the lower-case form of `w` occurs in
`cleanText(pre + "(" + inner + ")" + post, priorityWords)`. -/
theorem cleanText_keeps_bracketed_priority (env : Env) (pre inner post : Str)
    (priorityWords : List Str) (piece w : Str)
    (hpre : ∀ c ∈ pre, c ≠ 40 ∧ c ≠ 91 ∧ c ≠ 123) (hcl : 41 ∉ inner)
    (hlt : ∀ c ∈ inner, isLineTerminator c = false)
    (hpiece : piece ∈ splitWs inner) (hw : w ∈ priorityWords)
    (hletters : ∀ c ∈ w, IsAsciiLetter c)
    (hcase : toLowerCase env piece = toLowerCase env w) :
    toLowerCase env w <:+: cleanText env (pre ++ [40] ++ inner ++ [41] ++ post) priorityWords := by
  have hw128 : ∀ c ∈ w, c < 128 := fun c hc => by
    have := hletters c hc
    simp only [IsAsciiLetter] at this
    omega
  have hlw : toLowerCase env w = w.map asciiLower := toLowerCase_ascii env w hw128
  have hlwaz : ∀ c ∈ toLowerCase env w, isLowerAZ c = true := by
    intro c hc
    rw [hlw, List.mem_map] at hc
    obtain ⟨d, hd, rfl⟩ := hc
    have := hletters d hd
    simp only [IsAsciiLetter] at this
    rw [isLowerAZ_iff]
    unfold asciiLower
    split <;> omega
  have hkept : toLowerCase env w <:+: bracketReplacement env priorityWords inner := by
    have hmem : toLowerCase env w ∈ ((splitWs inner).map (fun word => toLowerCase env (trim word))).filter
        (fun word => priorityWords.any (fun pw => decide (toLowerCase env pw = word))) := by
      rw [List.mem_filter]
      refine ⟨List.mem_map.mpr ⟨piece, hpiece, ?_⟩, ?_⟩
      · rw [trim_of_no_space piece (no_space_of_mem_splitWs inner piece hpiece), hcase]
      · rw [List.any_eq_true]
        exact ⟨w, hw, by simp⟩
    unfold bracketReplacement
    simp only
    rw [if_pos (by
      intro h0
      rw [List.length_eq_zero] at h0
      rw [h0] at hmem
      simp at hmem)]
    exact infix_joinSpace _ _ hmem
  unfold cleanText
  rw [replaceBrackets_span env priorityWords 40 41 pre inner post rfl hpre hcl hlt]
  apply infix_cleanText_steps env _ _ hlwaz
  obtain ⟨a, b, e⟩ := hkept
  exact ⟨pre ++ a, b ++ replaceBrackets env priorityWords post, by simp [← e]⟩

/-- The example of C6: `"Great (Organic) product"` cleaned with the priority word `Organic`
holds `organic`. -/
theorem cleanText_keeps_bracketed_priority_witness :
    js "organic" <:+: cleanText verbEnv (js "Great (Organic) product") [js "Organic"] :=
  cleanText_keeps_bracketed_priority verbEnv (js "Great ") (js "Organic") (js " product")
    [js "Organic"] (js "Organic") (js "Organic") (by decide) (by decide) (by decide) (by decide)
    (by decide) (by decide) rfl

/-! ## isMeaningfulWord -/

theorem fourAtHead_iff (p : Nat → Bool) (s : Str) :
    fourAtHead p s = true ↔ ∃ a b c d rest, s = a :: b :: c :: d :: rest ∧
      p a = true ∧ p b = true ∧ p c = true ∧ p d = true := by
  match s with
  | [] => simp [fourAtHead]
  | [_] => simp [fourAtHead]
  | [_, _] => simp [fourAtHead]
  | [_, _, _] => simp [fourAtHead]
  | a :: b :: c :: d :: rest => simp [fourAtHead, and_assoc]

theorem testRun4_iff (p : Nat → Bool) (word : Str) :
    testRun4 p word = true ↔ HasRun4 (fun c => p c = true) word := by
  induction word with
  | nil =>
    simp only [testRun4, HasRun4]
    constructor
    · intro h; exact absurd h (by simp)
    · rintro ⟨pre, run, post, h, hlen, -⟩
      have := congrArg List.length h
      simp at this
      omega
  | cons x xs ih =>
    rw [testRun4, Bool.or_eq_true, ih, fourAtHead_iff]
    constructor
    · rintro (⟨a, b, c, d, rest, h, ha, hb, hc, hd⟩ | ⟨pre, run, post, h, hlen, hrun⟩)
      · refine ⟨[], [a, b, c, d], rest, by simpa using h, by simp, ?_⟩
        intro y hy
        simp at hy
        rcases hy with rfl | rfl | rfl | rfl <;> assumption
      · exact ⟨x :: pre, run, post, by simp [h], hlen, hrun⟩
    · rintro ⟨pre, run, post, h, hlen, hrun⟩
      cases pre with
      | nil =>
        match run, hlen, hrun with
        | a :: b :: c :: d :: rest, _, hrun =>
          left
          refine ⟨a, b, c, d, rest ++ post, by simpa using h, ?_, ?_, ?_, ?_⟩ <;>
            apply hrun <;> simp
      | cons y pre =>
        right
        simp at h
        exact ⟨pre, run, post, by simp [h.2], hlen, hrun⟩

theorem isVowelClass_iff (c : Nat) (hc : ¬ (65 ≤ c ∧ c ≤ 90)) :
    isVowelClass c = true ↔ IsVowel c := by
  simp [isVowelClass, IsVowel, asciiLower, if_neg hc]

theorem isConsonantClass_iff (c : Nat) (hc : ¬ (65 ≤ c ∧ c ≤ 90)) :
    isConsonantClass c = true ↔ IsConsonant c := by
  simp only [isConsonantClass, IsConsonant, asciiLower, if_neg hc, List.contains_eq_any_beq,
    List.any_eq_true, beq_iff_eq, exists_eq_right]
  constructor
  · intro h
    have h' : c = 98 ∨ c = 99 ∨ c = 100 ∨ c = 102 ∨ c = 103 ∨ c = 104 ∨ c = 106 ∨ c = 107 ∨
        c = 108 ∨ c = 109 ∨ c = 110 ∨ c = 112 ∨ c = 113 ∨ c = 114 ∨ c = 115 ∨ c = 116 ∨
        c = 118 ∨ c = 119 ∨ c = 120 ∨ c = 121 ∨ c = 122 := by
      simpa [js] using h
    have hv : c ∉ js "aeiou" := by
      simp only [js]
      intro hm
      have : c = 97 ∨ c = 101 ∨ c = 105 ∨ c = 111 ∨ c = 117 := by simpa using hm
      omega
    exact ⟨by omega, by omega, hv⟩
  · rintro ⟨h1, h2, h3⟩
    have h3' : ¬ (c = 97 ∨ c = 101 ∨ c = 105 ∨ c = 111 ∨ c = 117) := by
      intro hm
      apply h3
      simpa [js] using hm
    have h' : c = 98 ∨ c = 99 ∨ c = 100 ∨ c = 102 ∨ c = 103 ∨ c = 104 ∨ c = 106 ∨ c = 107 ∨
        c = 108 ∨ c = 109 ∨ c = 110 ∨ c = 112 ∨ c = 113 ∨ c = 114 ∨ c = 115 ∨ c = 116 ∨
        c = 118 ∨ c = 119 ∨ c = 120 ∨ c = 121 ∨ c = 122 := by omega
    simpa [js] using h'

theorem hasRun4_congr {P Q : Nat → Prop} {word : Str} (h : ∀ c ∈ word, (P c ↔ Q c)) :
    HasRun4 P word ↔ HasRun4 Q word := by
  constructor <;>
  · rintro ⟨pre, run, post, hw, hlen, hrun⟩
    refine ⟨pre, run, post, hw, hlen, fun c hc => ?_⟩
    have hmem : c ∈ word := by rw [hw]; simp [hc]
    first
      | exact (h c hmem).mp (hrun c hc)
      | exact (h c hmem).mpr (hrun c hc)

/-- C8: on a token without upper-case letters, `isMeaningfulWord` holds exactly when the
tagger reports a noun, a verb or an adjective, the token consists of ASCII letters only, it
has no run of four or more consonants, no run of four or more vowels, at most 15 code units,
and more than 2. -/
theorem isMeaningfulWord_iff (env : Env) (word : Str)
    (hlower : ∀ c ∈ word, ¬ (65 ≤ c ∧ c ≤ 90)) :
    isMeaningfulWord env word = true ↔
      (env.isNoun word = true ∨ env.isVerb word = true ∨ env.isAdjective word = true) ∧
      (∀ c ∈ word, IsAsciiLetter c) ∧
      (¬ HasRun4 IsConsonant word ∧ ¬ HasRun4 IsVowel word ∧ word.length ≤ 15) ∧
      2 < word.length := by
  have hcons : HasRun4 (fun c => isConsonantClass c = true) word ↔ HasRun4 IsConsonant word :=
    hasRun4_congr (fun c hc => isConsonantClass_iff c (hlower c hc))
  have hvow : HasRun4 (fun c => isVowelClass c = true) word ↔ HasRun4 IsVowel word :=
    hasRun4_congr (fun c hc => isVowelClass_iff c (hlower c hc))
  have hletters : (∀ c ∈ word, IsAsciiLetter c) ↔ ∀ c ∈ word, isLowerAZ c = true := by
    constructor
    · intro h c hc
      have := h c hc
      have := hlower c hc
      simp only [IsAsciiLetter] at *
      simp only [isLowerAZ, Bool.and_eq_true, decide_eq_true_eq]
      omega
    · intro h c hc
      have := h c hc
      simp only [isLowerAZ, Bool.and_eq_true, decide_eq_true_eq] at this
      exact Or.inr this
  simp only [isMeaningfulWord, Bool.and_eq_true, Bool.or_eq_true, Bool.not_eq_true',
    Bool.or_eq_false_iff, decide_eq_true_eq, decide_eq_false_iff_not, List.all_eq_true,
    ← Bool.not_eq_true, testRun4_iff, hcons, hvow, hletters, or_assoc, not_or]
  constructor
  · rintro ⟨⟨⟨h1, -, h2⟩, h3, h4, h5⟩, h6⟩
    exact ⟨h1, h2, ⟨h3, h4, by omega⟩, h6⟩
  · rintro ⟨h1, h2, ⟨h3, h4, h5⟩, h6⟩
    refine ⟨⟨⟨h1, ?_, h2⟩, h3, h4, by omega⟩, h6⟩
    rintro rfl
    simp at h6

/-- The examples of C8: `running`, tagged as a verb, is kept; `xyzzplk` is not, since it has
a run of consonants. -/
theorem isMeaningfulWord_iff_witness :
    isMeaningfulWord verbEnv (js "running") = true ∧
    isMeaningfulWord verbEnv (js "xyzzplk") = false := by
  constructor
  · rw [isMeaningfulWord_iff verbEnv (js "running") (by decide)]
    refine ⟨Or.inr (Or.inl rfl), by decide, ⟨?_, ?_, by decide⟩, by decide⟩
    · rw [← hasRun4_congr (fun c hc => isConsonantClass_iff c (by revert c; decide) ), ← testRun4_iff]
      decide
    · rw [← hasRun4_congr (fun c hc => isVowelClass_iff c (by revert c; decide)), ← testRun4_iff]
      decide
  · rw [← Bool.not_eq_true, isMeaningfulWord_iff verbEnv (js "xyzzplk") (by decide)]
    rintro ⟨-, -, ⟨h, -, -⟩, -⟩
    exact h ⟨[], js "xyzzplk", [], by decide, by decide, by decide⟩

/-! ## getPluralForm and applyPluralCorrection -/

theorem suffix_append_same_length {s stem t : Str} (hlen : s.length = t.length) :
    s <:+ stem ++ t ↔ s = t := by
  constructor
  · rintro ⟨u, hu⟩
    exact (List.append_inj' hu hlen).2
  · rintro rfl
    exact List.suffix_append _ _

theorem not_suffix_of_last_ne {s stem t : Str} (h : s.getLast? ≠ t.getLast?) (hs : s ≠ [])
    (ht : t ≠ []) : ¬ s <:+ stem ++ t := by
  rintro ⟨u, hu⟩
  have h1 := congrArg List.getLast? hu
  rw [List.getLast?_append, List.getLast?_append] at h1
  cases hs1 : s.getLast? with
  | none => exact hs (List.getLast?_eq_none_iff.mp hs1)
  | some x =>
    cases ht1 : t.getLast? with
    | none => exact ht (List.getLast?_eq_none_iff.mp ht1)
    | some y =>
      rw [hs1, ht1] at h1 h
      simp [Option.or] at h1
      exact h (by rw [h1])

theorem js_s : js "s" = [115] := rfl
theorem js_y : js "y" = [121] := rfl
theorem js_ch : js "ch" = [99, 104] := rfl
theorem js_sh : js "sh" = [115, 104] := rfl
theorem js_o : js "o" = [111] := rfl
theorem js_f : js "f" = [102] := rfl
theorem js_fe : js "fe" = [102, 101] := rfl
theorem js_ies : js "ies" = [105, 101, 115] := rfl
theorem js_ches : js "ches" = [99, 104, 101, 115] := rfl
theorem js_shes : js "shes" = [115, 104, 101, 115] := rfl
theorem js_oes : js "oes" = [111, 101, 115] := rfl
theorem js_ves : js "ves" = [118, 101, 115] := rfl

/-- The rule loop, one rule at a time. -/
theorem applyRules_cons (word suffix plural : Str) (rest : List (Str × Str)) :
    applyRules word ((suffix, plural) :: rest) =
      if suffix <:+ word then word.take (word.length - suffix.length) ++ plural
      else applyRules word rest := by
  simp [applyRules]

theorem getPluralForm_eq (word : Str) :
    getPluralForm word =
      if [115] <:+ word then word
      else if [121] <:+ word then word.take (word.length - 1) ++ [105, 101, 115]
      else if [99, 104] <:+ word then word.take (word.length - 2) ++ [99, 104, 101, 115]
      else if [115, 104] <:+ word then word.take (word.length - 2) ++ [115, 104, 101, 115]
      else if [111] <:+ word then word.take (word.length - 1) ++ [111, 101, 115]
      else if [102] <:+ word then word.take (word.length - 1) ++ [118, 101, 115]
      else if [102, 101] <:+ word then word.take (word.length - 2) ++ [118, 101, 115]
      else word ++ [115] := by
  unfold getPluralForm pluralRules
  simp only [applyRules_cons, js_s, js_y, js_ch, js_sh, js_o, js_f, js_fe, js_ies, js_ches,
    js_shes, js_oes, js_ves, List.isSuffixOf_iff_suffix, applyRules, List.length_cons, List.length_nil]
  split_ifs <;> rfl

/-- C10: `getPluralForm` leaves a word that ends in `s` as it is; otherwise a final `y` becomes
`ies`, a final `ch` becomes `ches`, a final `sh` becomes `shes`, a final `o` becomes `oes`, a
final `f` becomes `ves`, a final `fe` becomes `ves`; and `s` is appended when the word ends in
none of these.  The rules exclude each other, so the first one that matches is the only one. -/
theorem getPluralForm_rules (word stem : Str) :
    (word = stem ++ js "s" → getPluralForm word = word) ∧
    (word = stem ++ js "y" → getPluralForm word = stem ++ js "ies") ∧
    (word = stem ++ js "ch" → getPluralForm word = stem ++ js "ches") ∧
    (word = stem ++ js "sh" → getPluralForm word = stem ++ js "shes") ∧
    (word = stem ++ js "o" → getPluralForm word = stem ++ js "oes") ∧
    (word = stem ++ js "f" → getPluralForm word = stem ++ js "ves") ∧
    (word = stem ++ js "fe" → getPluralForm word = stem ++ js "ves") ∧
    (¬ js "s" <:+ word → ¬ js "y" <:+ word → ¬ js "ch" <:+ word → ¬ js "sh" <:+ word →
      ¬ js "o" <:+ word → ¬ js "f" <:+ word → ¬ js "fe" <:+ word →
      getPluralForm word = word ++ js "s") := by
  simp only [js_s, js_y, js_ch, js_sh, js_o, js_f, js_fe, js_ies, js_ches,
    js_shes, js_oes, js_ves]
  refine ⟨?_, ?_, ?_, ?_, ?_, ?_, ?_, ?_⟩
  · rintro rfl
    rw [getPluralForm_eq, if_pos (List.suffix_append _ _)]
  · rintro rfl
    rw [getPluralForm_eq, if_neg (not_suffix_of_last_ne (by decide) (by decide) (by decide)),
      if_pos (List.suffix_append _ _)]
    simp
  · rintro rfl
    rw [getPluralForm_eq, if_neg (not_suffix_of_last_ne (by decide) (by decide) (by decide)),
      if_neg (not_suffix_of_last_ne (by decide) (by decide) (by decide)),
      if_pos (List.suffix_append _ _)]
    simp
  · rintro rfl
    rw [getPluralForm_eq, if_neg (not_suffix_of_last_ne (by decide) (by decide) (by decide)),
      if_neg (not_suffix_of_last_ne (by decide) (by decide) (by decide)),
      if_neg (fun h => absurd ((suffix_append_same_length (s := [99, 104]) (t := [115, 104]) rfl).mp h)
        (by decide)),
      if_pos (List.suffix_append _ _)]
    simp
  · rintro rfl
    rw [getPluralForm_eq, if_neg (not_suffix_of_last_ne (by decide) (by decide) (by decide)),
      if_neg (not_suffix_of_last_ne (by decide) (by decide) (by decide)),
      if_neg (not_suffix_of_last_ne (by decide) (by decide) (by decide)),
      if_neg (not_suffix_of_last_ne (by decide) (by decide) (by decide)),
      if_pos (List.suffix_append _ _)]
    simp
  · rintro rfl
    rw [getPluralForm_eq, if_neg (not_suffix_of_last_ne (by decide) (by decide) (by decide)),
      if_neg (not_suffix_of_last_ne (by decide) (by decide) (by decide)),
      if_neg (not_suffix_of_last_ne (by decide) (by decide) (by decide)),
      if_neg (not_suffix_of_last_ne (by decide) (by decide) (by decide)),
      if_neg (not_suffix_of_last_ne (by decide) (by decide) (by decide)),
      if_pos (List.suffix_append _ _)]
    simp
  · rintro rfl
    rw [getPluralForm_eq, if_neg (not_suffix_of_last_ne (by decide) (by decide) (by decide)),
      if_neg (not_suffix_of_last_ne (by decide) (by decide) (by decide)),
      if_neg (not_suffix_of_last_ne (by decide) (by decide) (by decide)),
      if_neg (not_suffix_of_last_ne (by decide) (by decide) (by decide)),
      if_neg (not_suffix_of_last_ne (by decide) (by decide) (by decide)),
      if_neg (not_suffix_of_last_ne (by decide) (by decide) (by decide)),
      if_pos (List.suffix_append _ _)]
    simp
  · intro h1 h2 h3 h4 h5 h6 h7
    rw [getPluralForm_eq, if_neg h1, if_neg h2, if_neg h3, if_neg h4, if_neg h5, if_neg h6,
      if_neg h7]

/-- The rules of C10 at work on `fly`, `church`, `knife` and `cat`. -/
theorem getPluralForm_rules_witness :
    getPluralForm (js "fly") = js "flies" ∧ getPluralForm (js "church") = js "churches" ∧
    getPluralForm (js "knife") = js "knives" ∧ getPluralForm (js "cat") = js "cats" :=
  ⟨(getPluralForm_rules (js "fly") (js "fl")).2.1 (by decide),
   (getPluralForm_rules (js "church") (js "chur")).2.2.1 (by decide),
   (getPluralForm_rules (js "knife") (js "kni")).2.2.2.2.2.2.1 (by decide),
   (getPluralForm_rules (js "cat") (js "ca")).2.2.2.2.2.2.2 (by decide) (by decide) (by decide)
     (by decide) (by decide) (by decide) (by decide)⟩

theorem lookup_filter_map (p : Str → Bool) (f : Str → Str) (k : Str) (l : List Str) :
    ((l.filter p).map (fun w => (w, f w))).lookup k =
      if k ∈ l ∧ p k = true then some (f k) else none := by
  induction l with
  | nil => simp
  | cons a l ih =>
    by_cases hp : p a = true
    · rw [List.filter_cons_of_pos hp, List.map_cons, List.lookup_cons]
      by_cases hk : k = a
      · subst hk
        simp [hp]
      · have : (k == a) = false := by simpa using hk
        rw [this, ih]
        simp [hk]
    · rw [List.filter_cons_of_neg hp, ih]
      by_cases hk : k = a
      · subst hk
        simp [hp]
      · simp [hk]

theorem getPluralForm_ne_nil (word : Str) : getPluralForm word ≠ [] := by
  unfold getPluralForm
  split
  · rename_i h
    intro h0
    rw [h0] at h
    exact absurd h (by decide)
  · unfold pluralRules
    simp only [applyRules]
    split_ifs <;> simp [js]

theorem pluralLookup_of_not_inherited (words : List Str) (word : Str) (hw : word ∈ words)
    (hn : word ∉ inheritedNames) :
    pluralLookup (pluralMap words) word =
      Val.str (if singularForm word ∈ words ∧ getPluralForm word ∈ words ∧
        getPluralForm word ≠ word then getPluralForm word else word) := by
  have hproto : word ≠ js "__proto__" := by
    rintro rfl
    exact hn (by decide)
  unfold pluralLookup pluralMap
  rw [lookup_filter_map]
  by_cases hc : singularForm word ∈ words ∧ getPluralForm word ∈ words ∧ getPluralForm word ≠ word
  · have hE : hasPluralEntry words word = true := by
      simp [hasPluralEntry, hc.1, hc.2.1, hc.2.2]
    simp [hw, hE, hproto, hc, getPluralForm_ne_nil]
  · have hE : hasPluralEntry words word = false := by
      simp only [hasPluralEntry, Bool.and_eq_false_iff, decide_eq_false_iff_not]
      by_contra hcon
      push_neg at hcon
      exact hc ⟨hcon.1.1, hcon.1.2, by simpa using hcon.2⟩
    simp [hE, hn, hc]

/-- On a list that holds the name of an inherited property the read `pluralMap[word]` finds
the built-in every plain object inherits: for `constructor` the output holds that value, not
the word.  No token that passes `isMeaningfulWord` is such a name
(`not_inherited_of_isMeaningfulWord`), so `extractTopWords` never passes one. -/
theorem applyPluralCorrection_constructor :
    hasPluralEntry [js "constructor"] (js "constructor") = false ∧
    applyPluralCorrection [js "constructor"] = [Val.inherited (js "constructor")] ∧
    applyPluralCorrection [js "constructor"] ≠ [Val.str (js "constructor")] := by
  decide

/-- On a token list none of whose tokens names an inherited property,
`applyPluralCorrection` returns a list of the same length that holds, at the position of a
token `W`, the string `getPluralForm W` when the singular candidate of `W` and
`getPluralForm W` are both among the tokens and `getPluralForm W` differs from `W`, and `W`
otherwise. -/
theorem applyPluralCorrection_of_not_inherited (words : List Str)
    (hwords : ∀ w ∈ words, w ∉ inheritedNames) :
    (applyPluralCorrection words).length = words.length ∧
    ∀ (i : Nat) (W : Str), words[i]? = some W →
      (applyPluralCorrection words)[i]? =
        some (Val.str (if singularForm W ∈ words ∧ getPluralForm W ∈ words ∧
          getPluralForm W ≠ W then getPluralForm W else W)) := by
  refine ⟨by simp [applyPluralCorrection], ?_⟩
  intro i W hi
  have hW : W ∈ words := List.getElem?_mem hi
  unfold applyPluralCorrection
  rw [List.getElem?_map, hi, Option.map_some',
    pluralLookup_of_not_inherited words W hW (hwords W hW)]

/-! # extractTopWords -/

/-! ## Tokens that pass the filter -/

theorem isLowerAZ_of_isMeaningfulWord {env : Env} {word : Str}
    (h : isMeaningfulWord env word = true) : ∀ c ∈ word, isLowerAZ c = true := by
  simp only [isMeaningfulWord, Bool.and_eq_true, List.all_eq_true] at h
  exact h.1.1.2.2

theorem length_of_isMeaningfulWord {env : Env} {word : Str}
    (h : isMeaningfulWord env word = true) : 2 < word.length := by
  simp only [isMeaningfulWord, Bool.and_eq_true, decide_eq_true_eq] at h
  exact h.2

/-- No property name that plain objects inherit passes `isMeaningfulWord`: each holds an
upper-case letter or an underscore, and `constructor` holds the consonants `nstr`. -/
theorem not_inherited_of_isMeaningfulWord {env : Env} {word : Str}
    (h : isMeaningfulWord env word = true) : word ∉ inheritedNames := by
  intro hmem
  have key : ∀ n ∈ inheritedNames,
      (n.all isLowerAZ && !testRun4 isConsonantClass n) = false := by decide
  have := key word hmem
  simp only [isMeaningfulWord, Bool.and_eq_true, Bool.not_eq_true', Bool.or_eq_false_iff] at h
  rw [h.1.1.2.2, h.1.2.1.1] at this
  simp at this

theorem isMeaningfulWord_of_mem_filteredWords {env : Env} {line : Str}
    {ignoredWords priorityWords : List Str} {word : Str}
    (h : word ∈ filteredWords env line ignoredWords priorityWords) :
    isMeaningfulWord env word = true := by
  simp only [filteredWords, List.mem_filter] at h
  exact h.2

theorem correctedWord_mem (words : List Str) (word : Str) (h : word ∈ words) :
    correctedWord words word ∈ words := by
  unfold correctedWord
  split
  · rename_i hc
    exact hc.2.1
  · exact h

theorem filterMap_applyPluralCorrection (words : List Str)
    (hwords : ∀ w ∈ words, w ∉ inheritedNames) :
    (applyPluralCorrection words).filterMap Val.token = words.map (correctedWord words) := by
  unfold applyPluralCorrection
  rw [List.filterMap_map]
  have : ∀ sub : List Str, (∀ w ∈ sub, w ∈ words) →
      sub.filterMap (Val.token ∘ pluralLookup (pluralMap words)) = sub.map (correctedWord words) := by
    intro sub
    induction sub with
    | nil => intro _; rfl
    | cons a l ih =>
      intro hsub
      have ha : a ∈ words := hsub a (by simp)
      rw [List.filterMap_cons, List.map_cons, ih (fun w hw => hsub w (List.mem_cons_of_mem _ hw))]
      simp only [Function.comp, pluralLookup_of_not_inherited words a ha (hwords a ha),
        Val.token, correctedWord]
  exact this words (fun w hw => hw)

/-- In `extractTopWords` the plural correction yields strings only, one for each token. -/
theorem correctedWords_eq_map (env : Env) (line : Str) (ignoredWords priorityWords : List Str) :
    correctedWords env line ignoredWords priorityWords =
      (filteredWords env line ignoredWords priorityWords).map
        (correctedWord (filteredWords env line ignoredWords priorityWords)) :=
  filterMap_applyPluralCorrection _
    (fun _ hw => not_inherited_of_isMeaningfulWord (isMeaningfulWord_of_mem_filteredWords hw))

theorem mem_filteredWords_of_mem_correctedWords {env : Env} {line : Str}
    {ignoredWords priorityWords : List Str} {word : Str}
    (h : word ∈ correctedWords env line ignoredWords priorityWords) :
    word ∈ filteredWords env line ignoredWords priorityWords := by
  rw [correctedWords_eq_map, List.mem_map] at h
  obtain ⟨w, hw, rfl⟩ := h
  exact correctedWord_mem _ w hw

/-! ## Deduplication -/

theorem mem_uniq {α : Type} [DecidableEq α] : ∀ (l : List α) (x : α), x ∈ uniq l ↔ x ∈ l
  | [], x => by simp [uniq]
  | a :: l, x => by
    simp only [uniq, List.mem_cons, List.mem_filter, mem_uniq l x, decide_eq_true_eq]
    constructor
    · rintro (h | ⟨h, -⟩)
      · exact Or.inl h
      · exact Or.inr h
    · intro h
      by_cases hx : x = a
      · exact Or.inl hx
      · rcases h with h | h
        · exact absurd h hx
        · exact Or.inr ⟨h, hx⟩

theorem nodup_uniq {α : Type} [DecidableEq α] : ∀ (l : List α), (uniq l).Nodup
  | [] => by simp [uniq]
  | a :: l => by
    simp only [uniq, List.nodup_cons, List.mem_filter, decide_eq_true_eq, ne_eq, not_true_eq_false,
      and_false, not_false_eq_true, true_and]
    exact (nodup_uniq l).filter _

/-! ## The words of the label -/

theorem mem_uniqueWords_of_mem_finalWords {env : Env} {line : Str} {frequencyMap : FreqMap}
    {ignoredWords priorityWords : List Str} {word : Str}
    (h : word ∈ finalWords env line frequencyMap ignoredWords priorityWords) :
    word ∈ uniqueWords env line ignoredWords priorityWords := by
  simp only [finalWords, List.mem_append, priorityInLine, rankedWords, List.mem_filter,
    List.mem_insertionSort, candidateWords, decide_eq_true_eq] at h
  rcases h with h | h
  · exact h.2
  · exact h.1.1

theorem isMeaningfulWord_of_mem_uniqueWords {env : Env} {line : Str}
    {ignoredWords priorityWords : List Str} {word : Str}
    (h : word ∈ uniqueWords env line ignoredWords priorityWords) :
    isMeaningfulWord env word = true := by
  rw [uniqueWords, mem_uniq] at h
  exact isMeaningfulWord_of_mem_filteredWords (mem_filteredWords_of_mem_correctedWords h)

/-- The callback of the last `map` on a word of lower-case letters. -/
theorem capitalize_cons (env : Env) (c : Nat) (rest : Str) (hc : isLowerAZ c = true) :
    capitalize env (c :: rest) = (c - 32) :: rest := by
  rw [isLowerAZ_iff] at hc
  have h128 : c < 128 := by omega
  simp [capitalize, toUpperCaseChar, h128, asciiUpper, hc]

theorem isCapitalized_capitalize {env : Env} {word : Str}
    (h : isMeaningfulWord env word = true) : IsCapitalized (capitalize env word) := by
  have haz := isLowerAZ_of_isMeaningfulWord h
  have hlen := length_of_isMeaningfulWord h
  cases word with
  | nil => simp at hlen
  | cons c rest =>
    have hc := haz c (by simp)
    rw [capitalize_cons env c rest hc]
    rw [isLowerAZ_iff] at hc
    refine ⟨c - 32, rest, rfl, by omega, ?_⟩
    intro d hd
    exact (isLowerAZ_iff d).mp (haz d (List.mem_cons_of_mem _ hd))

/-- The label does not depend on the upper-case table of the environment. -/
theorem labelWords_eq_map_of_lower (env : Env) (line : Str) (frequencyMap : FreqMap)
    (maxWords : Nat) (ignoredWords priorityWords : List Str) :
    labelWords env line frequencyMap maxWords ignoredWords priorityWords =
      ((finalWords env line frequencyMap ignoredWords priorityWords).take maxWords).map
        (fun word => (word.headD 0 - 32) :: word.tail) := by
  unfold labelWords
  apply List.map_congr_left
  intro word hw
  have hm := isMeaningfulWord_of_mem_uniqueWords
    (mem_uniqueWords_of_mem_finalWords (List.mem_of_mem_take hw))
  have haz := isLowerAZ_of_isMeaningfulWord hm
  have hlen := length_of_isMeaningfulWord hm
  cases word with
  | nil => simp at hlen
  | cons c rest => simp [capitalize_cons env c rest (haz c (by simp))]

/-! ## The upper-case table is not consulted before the last step -/

theorem toLowerCaseFrom_upper (env : Env) (upper : Nat → Str) :
    ∀ (s before : Str), toLowerCaseFrom { env with upperNonAscii := upper } before s =
      toLowerCaseFrom env before s
  | [], _ => rfl
  | c :: cs, before => by
    simp only [toLowerCaseFrom, toLowerCaseFrom_upper env upper cs]
    rfl

theorem toLowerCase_upper (env : Env) (upper : Nat → Str) (s : Str) :
    toLowerCase { env with upperNonAscii := upper } s = toLowerCase env s :=
  toLowerCaseFrom_upper env upper s []

theorem bracketReplacement_upper (env : Env) (upper : Nat → Str) (priorityWords : List Str)
    (inner : Str) :
    bracketReplacement { env with upperNonAscii := upper } priorityWords inner =
      bracketReplacement env priorityWords inner := by
  simp only [bracketReplacement, toLowerCase_upper]

theorem replaceBracketsFrom_upper (env : Env) (upper : Nat → Str) (priorityWords : List Str) :
    ∀ (s : Str) (n : Nat),
      replaceBracketsFrom { env with upperNonAscii := upper } priorityWords n s =
        replaceBracketsFrom env priorityWords n s
  | [], _ => by simp [replaceBracketsFrom]
  | c :: cs, n + 1 => by
    simp only [replaceBracketsFrom, replaceBracketsFrom_upper env upper priorityWords cs]
  | c :: cs, 0 => by
    simp only [replaceBracketsFrom, replaceBracketsFrom_upper env upper priorityWords cs,
      bracketReplacement_upper]

theorem cleanText_upper (env : Env) (upper : Nat → Str) (text : Str) (priorityWords : List Str) :
    cleanText { env with upperNonAscii := upper } text priorityWords =
      cleanText env text priorityWords := by
  simp only [cleanText, replaceBrackets, replaceBracketsFrom_upper, toLowerCase_upper]

theorem finalWords_upper (env : Env) (upper : Nat → Str) (line : Str) (frequencyMap : FreqMap)
    (ignoredWords priorityWords : List Str) :
    finalWords { env with upperNonAscii := upper } line frequencyMap ignoredWords priorityWords =
      finalWords env line frequencyMap ignoredWords priorityWords := by
  have hm : isMeaningfulWord { env with upperNonAscii := upper } = isMeaningfulWord env := rfl
  have hs : removeStopwords { env with upperNonAscii := upper } = removeStopwords env := rfl
  have hf : filteredWords { env with upperNonAscii := upper } line ignoredWords priorityWords =
      filteredWords env line ignoredWords priorityWords := by
    simp only [filteredWords, cleanText_upper, hm, hs]
  simp only [finalWords, priorityInLine, rankedWords, candidateWords, uniqueWords,
    correctedWords, hf]

/-- C3: the label `extractTopWords` returns is a sequence of at most `maxWords` words joined
by single spaces, each word an upper-case ASCII letter followed by lower-case ASCII letters;
`processDataset` asks for at most 4.  The label is a function of the arguments, of the two
oracles and of the lower-case conversion: the upper-case table is never consulted. -/
theorem extractTopWords_format (env : Env) (line : Str) (frequencyMap : FreqMap)
    (maxWords : Nat) (ignoredWords priorityWords : List Str) :
    (∃ ws : List Str,
      extractTopWords env line frequencyMap maxWords ignoredWords priorityWords = joinSpace ws ∧
      ws.length ≤ maxWords ∧ ∀ w ∈ ws, IsCapitalized w) ∧
    (∀ dataset : List Str, ∀ label ∈ processDataset env dataset ignoredWords priorityWords,
      ∃ ws : List Str, label = joinSpace ws ∧ ws.length ≤ 4 ∧ ∀ w ∈ ws, IsCapitalized w) ∧
    (∀ upper : Nat → Str,
      extractTopWords { env with upperNonAscii := upper } line frequencyMap maxWords
          ignoredWords priorityWords =
        extractTopWords env line frequencyMap maxWords ignoredWords priorityWords) := by
  have key : ∀ (l : Str) (fm : FreqMap) (n : Nat),
      (labelWords env l fm n ignoredWords priorityWords).length ≤ n ∧
      ∀ w ∈ labelWords env l fm n ignoredWords priorityWords, IsCapitalized w := by
    intro l fm n
    refine ⟨by simp [labelWords, List.length_take, Nat.min_le_left], ?_⟩
    intro w hw
    simp only [labelWords, List.mem_map] at hw
    obtain ⟨v, hv, rfl⟩ := hw
    exact isCapitalized_capitalize (isMeaningfulWord_of_mem_uniqueWords
      (mem_uniqueWords_of_mem_finalWords (List.mem_of_mem_take hv)))
  refine ⟨⟨_, rfl, key line frequencyMap maxWords⟩, ?_, ?_⟩
  · intro dataset label hl
    simp only [processDataset, List.mem_map] at hl
    obtain ⟨l, -, rfl⟩ := hl
    exact ⟨_, rfl, key l _ 4⟩
  · intro upper
    unfold extractTopWords
    rw [labelWords_eq_map_of_lower, labelWords_eq_map_of_lower, finalWords_upper]

/-- C3 on the records `The quick brown fox` and `A quick red fox`: the first label is three
capitalised words. -/
theorem extractTopWords_format_witness :
    processDataset verbEnv [js "The quick brown fox", js "A quick red fox"] [] [] =
      [js "Quick Fox Brown", js "Quick Fox Red"] ∧
    ∃ ws : List Str, js "Quick Fox Brown" = joinSpace ws ∧ ws.length ≤ 4 ∧
      ∀ w ∈ ws, IsCapitalized w :=
  ⟨by decide,
   (extractTopWords_format verbEnv [] [] 0 [] []).2.1
    [js "The quick brown fox", js "A quick red fox"] (js "Quick Fox Brown") (by decide)⟩

/-! ## Priority words first -/

theorem capitalize_injective {env : Env} {a b : Str} (ha : isMeaningfulWord env a = true)
    (hb : isMeaningfulWord env b = true) (h : capitalize env a = capitalize env b) : a = b := by
  have haz := isLowerAZ_of_isMeaningfulWord ha
  have hbz := isLowerAZ_of_isMeaningfulWord hb
  have hal := length_of_isMeaningfulWord ha
  have hbl := length_of_isMeaningfulWord hb
  cases a with
  | nil => simp at hal
  | cons c ra =>
    cases b with
    | nil => simp at hbl
    | cons d rb =>
      have hc := haz c (by simp)
      have hd := hbz d (by simp)
      rw [capitalize_cons env c ra hc, capitalize_cons env d rb hd] at h
      rw [isLowerAZ_iff] at hc hd
      simp only [List.cons.injEq] at h
      obtain ⟨h1, h2⟩ := h
      have : c = d := by omega
      rw [this, h2]

theorem mem_priorityInLine {env : Env} {line : Str} {ignoredWords priorityWords : List Str}
    {word : Str} :
    word ∈ priorityInLine env line ignoredWords priorityWords ↔
      word ∈ priorityWords ∧ word ∈ uniqueWords env line ignoredWords priorityWords := by
  simp [priorityInLine]

theorem mem_rankedWords {env : Env} {line : Str} {frequencyMap : FreqMap}
    {ignoredWords priorityWords : List Str} {word : Str}
    (h : word ∈ rankedWords env line frequencyMap ignoredWords priorityWords) :
    word ∈ uniqueWords env line ignoredWords priorityWords ∧ word ∉ priorityWords := by
  simp only [rankedWords, List.mem_insertionSort, candidateWords, List.mem_filter,
    decide_eq_true_eq] at h
  exact ⟨h.1.1, h.1.2⟩

/-- C1 (as stated) fails by design in two ways, both on priority lists in lower case.  A
priority word that is also an ignored word is dropped by the ignored-word filter and is not in
the label at all, while a ranked word is; and with more than `maxWords` priority words in the
record the later ones are cut off. -/
theorem extractTopWords_priority_absent :
    (js "tea" ∈ [js "tea"] ∧ js "tea" ∈ splitWs (js "tea leaf") ∧
      extractTopWords verbEnv (js "tea leaf") [(js "leaf", 1)] 4 [js "tea"] [js "tea"] =
        js "Leaf") ∧
    (js "bark" ∈ [js "tea", js "leaf", js "seed", js "root", js "bark"] ∧
      js "bark" ∈ splitWs (js "tea leaf seed root bark") ∧
      extractTopWords verbEnv (js "tea leaf seed root bark") [] 4 []
          [js "tea", js "leaf", js "seed", js "root", js "bark"] =
        js "Tea Leaf Seed Root") := by
  decide

/-- With the priority word declared as `Organic`, `cleanText` keeps `organic` from inside the
brackets, comparing without regard to case, while the partition in `extractTopWords` compares
exactly: `organic` is ranked by its count like any other token. -/
theorem extractTopWords_priority_case :
    cleanText verbEnv (js "Great (Organic) product") [js "Organic"] =
      js "great organic product" ∧
    extractTopWords verbEnv (js "Great (Organic) product")
        [(js "great", 3), (js "organic", 1), (js "product", 2)] 4 [] [js "Organic"] =
      js "Great Product Organic" := by
  decide

/-- The first positions of the label hold the priority words found, in declared order. -/
theorem labelWords_getElem?_priority (env : Env) (line : Str) (frequencyMap : FreqMap)
    (maxWords : Nat) (ignoredWords priorityWords : List Str) (i : Nat) (p : Str)
    (hi : (priorityInLine env line ignoredWords priorityWords)[i]? = some p)
    (hlt : i < maxWords) :
    (labelWords env line frequencyMap maxWords ignoredWords priorityWords)[i]? =
      some (capitalize env p) := by
  have hilt : i < (priorityInLine env line ignoredWords priorityWords).length := by
    obtain ⟨h, -⟩ := List.getElem?_eq_some.mp hi
    exact h
  simp only [labelWords, List.getElem?_map]
  rw [List.getElem?_take_of_lt hlt, finalWords, List.getElem?_append_left hilt, hi]
  rfl

/-- The positions after the priority words hold the ranked words, in their order. -/
theorem labelWords_getElem?_ranked (env : Env) (line : Str) (frequencyMap : FreqMap)
    (maxWords : Nat) (ignoredWords priorityWords : List Str) (j : Nat)
    (hlt : (priorityInLine env line ignoredWords priorityWords).length + j < maxWords) :
    (labelWords env line frequencyMap maxWords ignoredWords priorityWords)[
        (priorityInLine env line ignoredWords priorityWords).length + j]? =
      ((rankedWords env line frequencyMap ignoredWords priorityWords)[j]?).map
        (capitalize env) := by
  simp only [labelWords, List.getElem?_map]
  rw [List.getElem?_take_of_lt hlt, finalWords,
    List.getElem?_append_right (Nat.le_add_right _ _), Nat.add_sub_cancel_left]

/-- A priority word among the tokens stands in the label before every ranked word of the
label. -/
theorem priority_before_ranked (env : Env) (line : Str) (frequencyMap : FreqMap)
    (maxWords : Nat) (ignoredWords priorityWords : List Str) (p r : Str) (j : Nat)
    (hp : p ∈ priorityWords) (hpU : p ∈ uniqueWords env line ignoredWords priorityWords)
    (hrU : r ∈ uniqueWords env line ignoredWords priorityWords) (hrP : r ∉ priorityWords)
    (hj : (labelWords env line frequencyMap maxWords ignoredWords priorityWords)[j]? =
      some (capitalize env r)) :
    ∃ i, i < j ∧
      (labelWords env line frequencyMap maxWords ignoredWords priorityWords)[i]? =
        some (capitalize env p) := by
  have hpP : p ∈ priorityInLine env line ignoredWords priorityWords :=
    mem_priorityInLine.mpr ⟨hp, hpU⟩
  obtain ⟨i, hi⟩ := List.mem_iff_getElem?.mp hpP
  have hilt : i < (priorityInLine env line ignoredWords priorityWords).length := by
    obtain ⟨h, -⟩ := List.getElem?_eq_some.mp hi
    exact h
  simp only [labelWords, List.getElem?_map, Option.map_eq_some'] at hj
  obtain ⟨x, hx, hcap⟩ := hj
  have hxmem : x ∈ (finalWords env line frequencyMap ignoredWords priorityWords).take maxWords :=
    List.getElem?_mem hx
  have hxU := mem_uniqueWords_of_mem_finalWords (List.mem_of_mem_take hxmem)
  have hxr : x = r := capitalize_injective (isMeaningfulWord_of_mem_uniqueWords hxU)
    (isMeaningfulWord_of_mem_uniqueWords hrU) hcap
  subst hxr
  have hjn : j < maxWords := by
    obtain ⟨h, -⟩ := List.getElem?_eq_some.mp hx
    have := List.length_take_le maxWords
      (finalWords env line frequencyMap ignoredWords priorityWords)
    omega
  rw [List.getElem?_take_of_lt hjn] at hx
  have hPj : (priorityInLine env line ignoredWords priorityWords).length ≤ j := by
    by_contra hlt
    push_neg at hlt
    rw [finalWords, List.getElem?_append_left hlt] at hx
    exact hrP (mem_priorityInLine.mp (List.getElem?_mem hx)).1
  exact ⟨i, by omega, labelWords_getElem?_priority env line frequencyMap maxWords ignoredWords
    priorityWords i p hi (by omega)⟩

/-- On a priority list in lower case the partition of `extractTopWords`, which compares
exactly, finds the priority words that match a token ignoring case. -/
theorem priorityInLine_eq_priorityFound (env : Env) (line : Str)
    (ignoredWords priorityWords : List Str)
    (hlower : ∀ p ∈ priorityWords, toLowerCase env p = p) :
    priorityInLine env line ignoredWords priorityWords =
      priorityFound env line ignoredWords priorityWords := by
  unfold priorityInLine priorityFound
  apply List.filter_congr
  intro p hp
  rw [hlower p hp]

theorem candidateWords_eq_rankedCandidates (env : Env) (line : Str) (frequencyMap : FreqMap)
    (ignoredWords priorityWords : List Str)
    (hlower : ∀ p ∈ priorityWords, toLowerCase env p = p) :
    candidateWords env line frequencyMap ignoredWords priorityWords =
      rankedCandidates env line frequencyMap ignoredWords priorityWords := by
  unfold candidateWords rankedCandidates
  rw [List.filter_filter]
  apply List.filter_congr
  intro w _
  have hiff : w ∉ priorityWords ↔ ∀ p ∈ priorityWords, toLowerCase env p ≠ w := by
    constructor
    · intro hw p hp e
      rw [hlower p hp] at e
      exact hw (e ▸ hp)
    · intro h hw
      exact h w hw (hlower w hw)
  have hdec : decide (w ∉ priorityWords) =
      decide (∀ p ∈ priorityWords, toLowerCase env p ≠ w) := decide_eq_decide.mpr hiff
  rw [hdec, Bool.and_comm]

/-- C1 (amended): for a priority list in lower case the label is the first `maxWords` words
of the priority words found in the record, in the order of the priority list, followed by
the ranked words, which are the tokens that are no priority words and have a count.  So a
priority word found stands in the label at its place among the priority words found whenever
that place is below `maxWords`, the ranked words fill the places after them, and a priority
word found stands before every ranked word of the label. -/
theorem labelWords_priority_first (env : Env) (line : Str) (frequencyMap : FreqMap)
    (maxWords : Nat) (ignoredWords priorityWords : List Str)
    (hlower : ∀ p ∈ priorityWords, toLowerCase env p = p) :
    extractTopWords env line frequencyMap maxWords ignoredWords priorityWords =
      joinSpace (((priorityFound env line ignoredWords priorityWords ++
        rankedWords env line frequencyMap ignoredWords priorityWords).take maxWords).map
          (capitalize env)) ∧
    (rankedWords env line frequencyMap ignoredWords priorityWords).Perm
      (rankedCandidates env line frequencyMap ignoredWords priorityWords) ∧
    (∀ (i : Nat) (p : Str),
      (priorityFound env line ignoredWords priorityWords)[i]? = some p → i < maxWords →
      (labelWords env line frequencyMap maxWords ignoredWords priorityWords)[i]? =
        some (capitalize env p)) ∧
    (∀ j : Nat, (priorityFound env line ignoredWords priorityWords).length + j < maxWords →
      (labelWords env line frequencyMap maxWords ignoredWords priorityWords)[
          (priorityFound env line ignoredWords priorityWords).length + j]? =
        ((rankedWords env line frequencyMap ignoredWords priorityWords)[j]?).map
          (capitalize env)) ∧
    (∀ p ∈ priorityFound env line ignoredWords priorityWords,
      ∀ r ∈ rankedCandidates env line frequencyMap ignoredWords priorityWords,
      ∀ j : Nat,
        (labelWords env line frequencyMap maxWords ignoredWords priorityWords)[j]? =
          some (capitalize env r) →
        ∃ i, i < j ∧
          (labelWords env line frequencyMap maxWords ignoredWords priorityWords)[i]? =
            some (capitalize env p)) := by
  have hP := priorityInLine_eq_priorityFound env line ignoredWords priorityWords hlower
  have hC := candidateWords_eq_rankedCandidates env line frequencyMap ignoredWords
    priorityWords hlower
  refine ⟨?_, ?_, ?_, ?_, ?_⟩
  · rw [← hP]
    rfl
  · rw [← hC, rankedWords]
    exact List.perm_insertionSort _ _
  · intro i p hi hlt
    rw [← hP] at hi
    exact labelWords_getElem?_priority env line frequencyMap maxWords ignoredWords
      priorityWords i p hi hlt
  · intro j hlt
    rw [← hP] at hlt ⊢
    exact labelWords_getElem?_ranked env line frequencyMap maxWords ignoredWords
      priorityWords j hlt
  · intro p hp r hr j hj
    rw [← hP] at hp
    rw [← hC] at hr
    have hp' := mem_priorityInLine.mp hp
    simp only [candidateWords, List.mem_filter, decide_eq_true_eq] at hr
    exact priority_before_ranked env line frequencyMap maxWords ignoredWords priorityWords p r j
      hp'.1 hp'.2 hr.1.1 hr.1.2 hj

/-- The amended C1 on the record `tea` with the priority word `tea`, where no ranked word
exists, and on `leaf tea`, where `Tea` stands before `Leaf`. -/
theorem labelWords_priority_first_witness :
    extractTopWords verbEnv (js "tea") [] 4 [] [js "tea"] = js "Tea" ∧
    extractTopWords verbEnv (js "leaf tea") [(js "leaf", 1)] 4 [] [js "tea"] = js "Tea Leaf" ∧
    (labelWords verbEnv (js "tea") [] 4 [] [js "tea"])[0]? = some (capitalize verbEnv (js "tea")) ∧
    (labelWords verbEnv (js "leaf tea") [(js "leaf", 1)] 4 [] [js "tea"])[0]? =
      some (capitalize verbEnv (js "tea")) :=
  ⟨by decide, by decide,
   (labelWords_priority_first verbEnv (js "tea") [] 4 [] [js "tea"] (by decide)).2.2.1 0
    (js "tea") (by decide) (by decide),
   (labelWords_priority_first verbEnv (js "leaf tea") [(js "leaf", 1)] 4 [] [js "tea"]
    (by decide)).2.2.1 0 (js "tea") (by decide) (by decide)⟩

/-! ## The stable sort by descending count -/

theorem filter_orderedInsert_count (f : Str → Nat) (k : Nat) (a : Str) :
    ∀ (l : List Str),
      (l.orderedInsert (fun x y => f y ≤ f x) a).filter (fun x => decide (f x = k)) =
        (a :: l).filter (fun x => decide (f x = k))
  | [] => rfl
  | b :: l => by
    by_cases hab : f b ≤ f a
    · rw [List.orderedInsert, if_pos hab]
    · rw [List.orderedInsert, if_neg hab, List.filter_cons, filter_orderedInsert_count f k a l]
      by_cases ha : f a = k
      · have hb : ¬ f b = k := by omega
        simp [ha, hb]
      · simp [ha, List.filter_cons]

/-- Stability: among the words of one count, the sort keeps the order of its input. -/
theorem filter_insertionSort_count (f : Str → Nat) (k : Nat) :
    ∀ (l : List Str),
      (l.insertionSort (fun x y => f y ≤ f x)).filter (fun x => decide (f x = k)) =
        l.filter (fun x => decide (f x = k))
  | [] => rfl
  | a :: l => by
    rw [List.insertionSort, filter_orderedInsert_count, List.filter_cons, List.filter_cons,
      filter_insertionSort_count f k l]

theorem sorted_insertionSort_count (f : Str → Nat) (l : List Str) :
    (l.insertionSort (fun x y => f y ≤ f x)).Pairwise (fun x y => f y ≤ f x) := by
  haveI : IsTotal Str (fun x y => f y ≤ f x) := ⟨fun a b => Nat.le_total (f b) (f a)⟩
  haveI : IsTrans Str (fun x y => f y ≤ f x) := ⟨fun a b c hab hbc => Nat.le_trans hbc hab⟩
  exact List.sorted_insertionSort (fun x y => f y ≤ f x) l

/-- The order of `[...new Set(xs)]` is the order of first occurrence in `xs`: when `a` stands
before `b` in it, `xs` holds an `a` with neither `a` nor `b` before it. -/
theorem first_occurrence_of_pair_sublist_uniq {a b : Str} :
    ∀ (l : List Str), List.Sublist [a, b] (uniq l) →
      ∃ pre post, l = pre ++ a :: post ∧ a ∉ pre ∧ b ∉ pre
  | [], h => by simp [uniq] at h
  | x :: l, h => by
    rw [uniq, List.sublist_cons_iff] at h
    rcases h with h | ⟨r, hr, h⟩
    · have hsub : List.Sublist [a, b] (uniq l) := h.trans (List.filter_sublist _)
      have ha : a ∈ (uniq l).filter (fun y => decide (y ≠ x)) := h.subset (by simp)
      have hb : b ∈ (uniq l).filter (fun y => decide (y ≠ x)) := h.subset (by simp)
      simp only [List.mem_filter, decide_eq_true_eq] at ha hb
      obtain ⟨pre, post, hl, hapre, hbpre⟩ := first_occurrence_of_pair_sublist_uniq l hsub
      refine ⟨x :: pre, post, by rw [hl]; rfl, ?_, ?_⟩
      · simp only [List.mem_cons, not_or]
        exact ⟨ha.2, hapre⟩
      · simp only [List.mem_cons, not_or]
        exact ⟨hb.2, hbpre⟩
    · simp only [List.cons.injEq] at hr
      obtain ⟨rfl, rfl⟩ := hr
      exact ⟨[], l, rfl, by simp, by simp⟩

theorem rankedInLabel_eq_take (env : Env) (line : Str) (frequencyMap : FreqMap) (maxWords : Nat)
    (ignoredWords priorityWords : List Str) :
    rankedInLabel env line frequencyMap maxWords ignoredWords priorityWords =
      (rankedWords env line frequencyMap ignoredWords priorityWords).take
        (maxWords - (priorityInLine env line ignoredWords priorityWords).length) := by
  unfold rankedInLabel finalWords
  rw [List.take_append_eq_append_take, List.filter_append]
  have h1 : ((priorityInLine env line ignoredWords priorityWords).take maxWords).filter
      (fun word => decide (word ∉ priorityWords)) = [] := by
    rw [List.filter_eq_nil_iff]
    intro w hw
    have := (mem_priorityInLine.mp (List.mem_of_mem_take hw)).1
    simpa using this
  have h2 : ((rankedWords env line frequencyMap ignoredWords priorityWords).take
      (maxWords - (priorityInLine env line ignoredWords priorityWords).length)).filter
      (fun word => decide (word ∉ priorityWords)) =
      (rankedWords env line frequencyMap ignoredWords priorityWords).take
        (maxWords - (priorityInLine env line ignoredWords priorityWords).length) := by
    rw [List.filter_eq_self]
    intro w hw
    have := (mem_rankedWords (List.mem_of_mem_take hw)).2
    simpa using this
  rw [h1, h2, List.nil_append]

/-- C2: in the label the words that are no priority words are the first ranked words; they
stand in non-increasing order of their count in the frequency map, and two of them with the
same count stand in the order of their first occurrence in the record's filtered,
plural-corrected token list: that list holds the first of them with neither word before it. -/
theorem rankedInLabel_order (env : Env) (line : Str) (frequencyMap : FreqMap) (maxWords : Nat)
    (ignoredWords priorityWords : List Str) :
    rankedInLabel env line frequencyMap maxWords ignoredWords priorityWords <+:
      rankedWords env line frequencyMap ignoredWords priorityWords ∧
    (rankedInLabel env line frequencyMap maxWords ignoredWords priorityWords).Pairwise
      (fun a b => frequencyMap.count b ≤ frequencyMap.count a) ∧
    (∀ a b : Str,
      List.Sublist [a, b]
        (rankedInLabel env line frequencyMap maxWords ignoredWords priorityWords) →
      frequencyMap.count a = frequencyMap.count b →
      ∃ pre post, correctedWords env line ignoredWords priorityWords = pre ++ a :: post ∧
        a ∉ pre ∧ b ∉ pre) := by
  rw [rankedInLabel_eq_take]
  refine ⟨List.take_prefix _ _, ?_, ?_⟩
  · exact (sorted_insertionSort_count frequencyMap.count _).sublist (List.take_sublist _ _)
  · intro a b hab hcount
    have h1 : List.Sublist [a, b] (rankedWords env line frequencyMap ignoredWords priorityWords) :=
      hab.trans (List.take_sublist _ _)
    have h2 := h1.filter (fun x => decide (frequencyMap.count x = frequencyMap.count a))
    rw [rankedWords, filter_insertionSort_count] at h2
    have h3 : [a, b].filter (fun x => decide (frequencyMap.count x = frequencyMap.count a)) =
        [a, b] := by
      simp [hcount]
    rw [h3] at h2
    have h4 : List.Sublist [a, b] (uniqueWords env line ignoredWords priorityWords) :=
      h2.trans ((List.filter_sublist _).trans
        ((List.filter_sublist _).trans (List.filter_sublist _)))
    exact first_occurrence_of_pair_sublist_uniq _ h4

/-- The example of C2: for the records `The quick brown fox` and `A quick red fox`, `quick`
and `fox`, counted twice, stand before `brown` and `red`, and `quick` before `fox` as in the
record. -/
theorem rankedInLabel_order_witness :
    processDataset verbEnv [js "The quick brown fox", js "A quick red fox"] [] [] =
      [js "Quick Fox Brown", js "Quick Fox Red"] ∧
    ∃ pre post, correctedWords verbEnv (js "the quick brown fox") [] [] =
      pre ++ js "quick" :: post ∧ js "quick" ∉ pre ∧ js "fox" ∉ pre :=
  ⟨by decide,
   (rankedInLabel_order verbEnv (js "the quick brown fox")
      [(js "quick", 2), (js "brown", 1), (js "fox", 2), (js "red", 1)] 4 [] []).2.2
      (js "quick") (js "fox") (by decide) (by decide)⟩

/-! ## applyPluralCorrection on the tokens of a record -/

/-- C9: on every token list `applyPluralCorrection` receives, a list of tokens that passed
`isMeaningfulWord`, it returns a list of the same length that holds, at the position of a
token `W`, the string `getPluralForm W` when the singular candidate of `W` and
`getPluralForm W` are both among the tokens and `getPluralForm W` differs from `W`, and `W`
itself otherwise. -/
theorem applyPluralCorrection_positions (env : Env) (words : List Str)
    (hwords : ∀ w ∈ words, isMeaningfulWord env w = true) :
    (applyPluralCorrection words).length = words.length ∧
    ∀ (i : Nat) (W : Str), words[i]? = some W →
      (applyPluralCorrection words)[i]? =
        some (Val.str (if singularForm W ∈ words ∧ getPluralForm W ∈ words ∧
          getPluralForm W ≠ W then getPluralForm W else W)) :=
  applyPluralCorrection_of_not_inherited words
    (fun w hw => not_inherited_of_isMeaningfulWord (hwords w hw))

/-- The example of C9: `["cat", "cats", "dog"]` gives `["cats", "cats", "dog"]`. -/
theorem applyPluralCorrection_positions_witness :
    applyPluralCorrection [js "cat", js "cats", js "dog"] =
      [Val.str (js "cats"), Val.str (js "cats"), Val.str (js "dog")] ∧
    (applyPluralCorrection [js "cat", js "cats", js "dog"])[0]? = some (Val.str (js "cats")) := by
  refine ⟨by decide, ?_⟩
  have h := (applyPluralCorrection_positions verbEnv [js "cat", js "cats", js "dog"]
    (by decide)).2 0 (js "cat") (by decide)
  rw [h]
  decide

/-! # buildWordFrequencyMap -/

theorem lookup_increment (w k : Str) : ∀ (m : FreqMap),
    (FreqMap.increment m w).lookup k = if k = w then some (m.count w + 1) else m.lookup k
  | [] => by
    by_cases h : k = w
    · subst h
      simp [FreqMap.increment, FreqMap.count, List.lookup]
    · have : (k == w) = false := by simpa using h
      simp [FreqMap.increment, List.lookup, this, h]
  | (a, n) :: rest => by
    have ih := lookup_increment w k rest
    by_cases haw : a = w
    · subst haw
      by_cases h : k = a
      · subst h
        simp [FreqMap.increment, FreqMap.count, List.lookup]
      · have : (k == a) = false := by simpa using h
        simp [FreqMap.increment, List.lookup, this, h]
    · by_cases h : k = w
      · subst h
        have hka : (k == a) = false := by simpa using (Ne.symm haw)
        simp [FreqMap.increment, haw, List.lookup, hka, ih, FreqMap.count]
      · by_cases hk : k = a
        · subst hk
          simp [FreqMap.increment, haw, List.lookup, h]
        · have hka : (k == a) = false := by simpa using hk
          simp [FreqMap.increment, haw, List.lookup, hka, ih, h]

theorem count_increment (m : FreqMap) (w k : Str) :
    (FreqMap.increment m w).count k = m.count k + (if k = w then 1 else 0) := by
  unfold FreqMap.count
  rw [lookup_increment]
  by_cases h : k = w
  · subst h
    simp [FreqMap.count]
  · simp [h]

theorem occurrences_cons (k a : Str) (ws : List Str) :
    occurrences k (a :: ws) = (if a = k then 1 else 0) + occurrences k ws := by
  unfold occurrences
  by_cases h : a = k
  · simp [h, Nat.add_comm]
  · simp [h]

theorem occurrences_append (k : Str) (xs ys : List Str) :
    occurrences k (xs ++ ys) = occurrences k xs + occurrences k ys := by
  simp [occurrences]

/-- The map after a run of increments: an entry for `k` appears or grows exactly when `k`
is among the words. -/
theorem lookup_foldl_increment (k : Str) : ∀ (ws : List Str) (m : FreqMap),
    (ws.foldl FreqMap.increment m).lookup k =
      if occurrences k ws = 0 then m.lookup k else some (m.count k + occurrences k ws)
  | [], m => by simp [occurrences]
  | a :: ws, m => by
    rw [List.foldl_cons, lookup_foldl_increment k ws, occurrences_cons, count_increment,
      lookup_increment]
    by_cases h : a = k
    · subst h
      simp only [if_true]
      by_cases h0 : occurrences a ws = 0
      · simp [h0]
      · rw [if_neg h0, if_neg (by omega)]
        congr 1
        omega
    · have h' : ¬ k = a := fun e => h e.symm
      simp [h, h']

theorem foldl_foldl_increment (f : Str → List Str) : ∀ (dataset : List Str) (m : FreqMap),
    dataset.foldl (fun frequencyMap line => (f line).foldl FreqMap.increment frequencyMap) m =
      (dataset.flatMap f).foldl FreqMap.increment m
  | [], m => rfl
  | line :: rest, m => by
    rw [List.foldl_cons, foldl_foldl_increment f rest, List.flatMap_cons, List.foldl_append]

theorem occurrences_flatMap (k : Str) (f : Str → List Str) : ∀ (dataset : List Str),
    occurrences k (dataset.flatMap f) = (dataset.map (fun line => occurrences k (f line))).sum
  | [] => rfl
  | line :: rest => by
    rw [List.flatMap_cons, occurrences_append, occurrences_flatMap k f rest, List.map_cons,
      List.sum_cons]

theorem buildWordFrequencyMap_eq_foldl (env : Env) (dataset ignoredWords : List Str) :
    buildWordFrequencyMap env dataset ignoredWords =
      (dataset.flatMap (countedWords env ignoredWords)).foldl FreqMap.increment [] := by
  unfold buildWordFrequencyMap
  exact foldl_foldl_increment _ dataset []

theorem countedWords_eq_filter (env : Env) (ignoredWords : List Str) (line : Str) :
    countedWords env ignoredWords line =
      (keptTokens env ignoredWords line).filter (isMeaningfulWord env) := rfl

theorem occurrences_countedWords (env : Env) (ignoredWords : List Str) (line w : Str)
    (hw : isMeaningfulWord env w = true) :
    occurrences w (countedWords env ignoredWords line) =
      occurrences w (keptTokens env ignoredWords line) := by
  rw [countedWords_eq_filter]
  unfold occurrences
  rw [List.filter_filter]
  congr 1
  apply List.filter_congr
  intro x _
  by_cases h : x = w
  · subst h
    simp [hw]
  · simp [h]

/-- The entry of a word in the frequency map, from the occurrences in the counted words. -/
theorem lookup_buildWordFrequencyMap (env : Env) (dataset ignoredWords : List Str) (k : Str) :
    (buildWordFrequencyMap env dataset ignoredWords).lookup k =
      if occurrences k (dataset.flatMap (countedWords env ignoredWords)) = 0 then none
      else some (occurrences k (dataset.flatMap (countedWords env ignoredWords))) := by
  rw [buildWordFrequencyMap_eq_foldl, lookup_foldl_increment]
  simp [FreqMap.count]

theorem mem_countedWords {env : Env} {ignoredWords : List Str} {line w : Str}
    (h : w ∈ countedWords env ignoredWords line) :
    isMeaningfulWord env w = true ∧ w ∉ ignoredWords ∧ env.isStopword w = false := by
  simp only [countedWords, removeStopwords, List.mem_filter, decide_eq_true_eq,
    Bool.not_eq_true'] at h
  exact ⟨h.2, h.1.1.2, h.1.2⟩

theorem occurrences_pos_iff (k : Str) (ws : List Str) : 0 < occurrences k ws ↔ k ∈ ws := by
  unfold occurrences
  rw [List.length_pos_iff_exists_mem]
  constructor
  · rintro ⟨a, ha⟩
    simp only [List.mem_filter, decide_eq_true_eq] at ha
    exact ha.2 ▸ ha.1
  · intro h
    exact ⟨k, by simp [h]⟩

theorem mem_of_lookup_eq_some {k : Str} {n : Nat} : ∀ {m : FreqMap},
    m.lookup k = some n → (k, n) ∈ m
  | [], h => by simp at h
  | (a, b) :: rest, h => by
    by_cases hk : k = a
    · subst hk
      simp [List.lookup] at h
      subst h
      simp
    · have hka : (k == a) = false := by simpa using hk
      simp only [List.lookup, hka] at h
      exact List.mem_cons_of_mem _ (mem_of_lookup_eq_some h)

theorem keys_increment (w : Str) : ∀ (m : FreqMap),
    (FreqMap.increment m w).map Prod.fst =
      if w ∈ m.map Prod.fst then m.map Prod.fst else m.map Prod.fst ++ [w]
  | [] => by simp [FreqMap.increment]
  | (a, n) :: rest => by
    by_cases haw : a = w
    · subst haw
      simp [FreqMap.increment]
    · have hwa : ¬ w = a := fun e => haw e.symm
      simp only [FreqMap.increment, if_neg haw, List.map_cons, keys_increment w rest,
        List.mem_cons, hwa, false_or]
      split <;> simp

theorem nodup_keys_foldl_increment : ∀ (ws : List Str) (m : FreqMap),
    (m.map Prod.fst).Nodup → ((ws.foldl FreqMap.increment m).map Prod.fst).Nodup
  | [], _, h => h
  | a :: ws, m, h => by
    rw [List.foldl_cons]
    apply nodup_keys_foldl_increment ws
    rw [keys_increment]
    split
    · exact h
    · rename_i hn
      rw [List.nodup_append]
      exact ⟨h, by simp, by
        intro x hx hy
        simp only [List.mem_singleton] at hy
        subst hy
        exact hn hx⟩

theorem lookup_of_mem_of_nodup_keys {k : Str} {n : Nat} : ∀ {m : FreqMap},
    (m.map Prod.fst).Nodup → (k, n) ∈ m → m.lookup k = some n
  | [], _, h => by simp at h
  | (a, b) :: rest, hnd, h => by
    rw [List.map_cons, List.nodup_cons] at hnd
    rw [List.mem_cons] at h
    rcases h with h | h
    · simp only [Prod.mk.injEq] at h
      obtain ⟨rfl, rfl⟩ := h
      simp [List.lookup]
    · have hk : k ≠ a := by
        rintro rfl
        exact hnd.1 (List.mem_map.mpr ⟨(k, n), h, rfl⟩)
      have hka : (k == a) = false := by simpa using hk
      simp only [List.lookup, hka]
      exact lookup_of_mem_of_nodup_keys hnd.2 h

/-- An entry of the map stands for a counted word, with the number of its occurrences. -/
theorem mem_foldl_increment_nil {k : Str} {n : Nat} (ws : List Str)
    (h : (k, n) ∈ ws.foldl FreqMap.increment []) : k ∈ ws ∧ n = occurrences k ws := by
  have hnodup := nodup_keys_foldl_increment ws [] (by simp)
  have hl : (ws.foldl FreqMap.increment []).lookup k = some n :=
    lookup_of_mem_of_nodup_keys hnodup h
  rw [lookup_foldl_increment] at hl
  by_cases h0 : occurrences k ws = 0
  · rw [if_pos h0] at hl
    simp at hl
  · rw [if_neg h0] at hl
    simp only [FreqMap.count, List.lookup, Option.getD_none, Nat.zero_add,
      Option.some.injEq] at hl
    exact ⟨(occurrences_pos_iff k ws).mp (by omega), hl.symm⟩

/-- C11: every entry of the map `buildWordFrequencyMap` returns has a key that passes
`isMeaningfulWord`, is no ignored word and no stop-word, and a count that is positive; the
entry is the one a read of the map at that key finds. -/
theorem buildWordFrequencyMap_keys (env : Env) (dataset ignoredWords : List Str) (k : Str)
    (n : Nat) (h : (k, n) ∈ buildWordFrequencyMap env dataset ignoredWords) :
    isMeaningfulWord env k = true ∧ k ∉ ignoredWords ∧ env.isStopword k = false ∧ 0 < n ∧
      (buildWordFrequencyMap env dataset ignoredWords).lookup k = some n := by
  rw [buildWordFrequencyMap_eq_foldl] at h ⊢
  obtain ⟨hmem, hn⟩ := mem_foldl_increment_nil _ h
  obtain ⟨line, -, hline⟩ := List.mem_flatMap.mp hmem
  obtain ⟨h1, h2, h3⟩ := mem_countedWords hline
  refine ⟨h1, h2, h3, ?_, lookup_of_mem_of_nodup_keys
    (nodup_keys_foldl_increment _ [] (by simp)) h⟩
  rw [hn]
  exact (occurrences_pos_iff k _).mpr hmem

/-- C11 on the records `The quick brown fox` and `A quick red fox`: the entry of `quick`. -/
theorem buildWordFrequencyMap_keys_witness :
    buildWordFrequencyMap verbEnv [js "The quick brown fox", js "A quick red fox"] [] =
      [(js "quick", 2), (js "brown", 1), (js "fox", 2), (js "red", 1)] ∧
    isMeaningfulWord verbEnv (js "quick") = true ∧ verbEnv.isStopword (js "quick") = false :=
  ⟨by decide,
   (buildWordFrequencyMap_keys verbEnv [js "The quick brown fox", js "A quick red fox"] []
      (js "quick") 2 (by decide)).1,
   (buildWordFrequencyMap_keys verbEnv [js "The quick brown fox", js "A quick red fox"] []
      (js "quick") 2 (by decide)).2.2.1⟩

/-- C12: for a token `w` that passes `isMeaningfulWord`, the count the map gives `w` is the
number of occurrences of `w`, summed over the records, among the pieces of
`cleanText(record, [])` that are no ignored words and no stop-words; the map has no entry for
`w` exactly when that total is 0.  Every occurrence counts, also a repeated one. -/
theorem buildWordFrequencyMap_count (env : Env) (dataset ignoredWords : List Str) (w : Str)
    (hw : isMeaningfulWord env w = true) :
    (buildWordFrequencyMap env dataset ignoredWords).count w =
      (dataset.map (fun record => occurrences w (keptTokens env ignoredWords record))).sum ∧
    ((buildWordFrequencyMap env dataset ignoredWords).lookup w = none ↔
      (dataset.map (fun record => occurrences w (keptTokens env ignoredWords record))).sum = 0) := by
  have hsum : occurrences w (dataset.flatMap (countedWords env ignoredWords)) =
      (dataset.map (fun record => occurrences w (keptTokens env ignoredWords record))).sum := by
    rw [occurrences_flatMap]
    congr 1
    apply List.map_congr_left
    intro line _
    exact occurrences_countedWords env ignoredWords line w hw
  unfold FreqMap.count
  rw [lookup_buildWordFrequencyMap, hsum]
  by_cases h0 : (dataset.map
      (fun record => occurrences w (keptTokens env ignoredWords record))).sum = 0
  · simp [h0]
  · simp [h0]

/-- C12 on the records `fox fox` and `a fox`: `fox` is counted three times. -/
theorem buildWordFrequencyMap_count_witness :
    (buildWordFrequencyMap verbEnv [js "fox fox", js "a fox"] []).count (js "fox") = 3 := by
  rw [(buildWordFrequencyMap_count verbEnv [js "fox fox", js "a fox"] [] (js "fox")
    (by decide)).1]
  decide

/-! # processDataset -/

theorem cleanText_cleanText (env : Env) (text : Str) (p q : List Str) :
    cleanText env (cleanText env text p) q = cleanText env text p :=
  cleanText_of_isClean env _ q (isClean_of_steps _)

/-- On a record already cleaned with the priority list, `buildWordFrequencyMap` counts the
tokens `extractTopWords` filters out of the record. -/
theorem countedWords_cleanText (env : Env) (ignoredWords priorityWords : List Str) (line : Str) :
    countedWords env ignoredWords (cleanText env line priorityWords) =
      filteredWords env line ignoredWords priorityWords := by
  simp only [countedWords, filteredWords, cleanText_cleanText]

theorem filteredWords_cleanText (env : Env) (ignoredWords priorityWords : List Str) (line : Str) :
    filteredWords env (cleanText env line priorityWords) ignoredWords priorityWords =
      filteredWords env line ignoredWords priorityWords := by
  simp only [filteredWords, cleanText_cleanText]

theorem uniqueWords_cleanText (env : Env) (ignoredWords priorityWords : List Str) (line : Str) :
    uniqueWords env (cleanText env line priorityWords) ignoredWords priorityWords =
      uniqueWords env line ignoredWords priorityWords := by
  simp only [uniqueWords, correctedWords, filteredWords_cleanText]

/-- The extractor gives the cleaned record the label it gives the raw one. -/
theorem extractTopWords_cleanText (env : Env) (line : Str) (frequencyMap : FreqMap)
    (maxWords : Nat) (ignoredWords priorityWords : List Str) :
    extractTopWords env (cleanText env line priorityWords) frequencyMap maxWords ignoredWords
        priorityWords =
      extractTopWords env line frequencyMap maxWords ignoredWords priorityWords := by
  simp only [extractTopWords, labelWords, finalWords, priorityInLine, rankedWords,
    candidateWords, uniqueWords_cleanText]

theorem flatMap_map_eq (f : Str → Str) (g : Str → List Str) : ∀ (l : List Str),
    (l.map f).flatMap g = l.flatMap (fun x => g (f x))
  | [] => rfl
  | a :: l => by
    rw [List.map_cons, List.flatMap_cons, List.flatMap_cons, flatMap_map_eq f g l]

theorem frequencyMapOf_eq_foldl (env : Env) (dataset ignoredWords priorityWords : List Str) :
    frequencyMapOf env dataset ignoredWords priorityWords =
      (dataset.flatMap (fun line => filteredWords env line ignoredWords priorityWords)).foldl
        FreqMap.increment [] := by
  unfold frequencyMapOf cleanedData
  rw [buildWordFrequencyMap_eq_foldl, flatMap_map_eq]
  simp only [countedWords_cleanText]

theorem processDataset_eq (env : Env) (dataset ignoredWords priorityWords : List Str) :
    processDataset env dataset ignoredWords priorityWords =
      (cleanedData env dataset priorityWords).map (fun line =>
        extractTopWords env line (frequencyMapOf env dataset ignoredWords priorityWords) 4
          ignoredWords priorityWords) := rfl

/-- C13: the code at the record `Great (Organic) product` with the priority word `Organic`.
The map `processDataset` ranks with holds `organic`, which stands only inside brackets, with
count 1; `buildWordFrequencyMap` on the raw record, which cleans with an empty priority list,
has no entry for it. -/
theorem frequencyMapOf_counts_bracketed_priority :
    frequencyMapOf verbEnv [js "Great (Organic) product"] [] [js "Organic"] =
      [(js "great", 1), (js "organic", 1), (js "product", 1)] ∧
    buildWordFrequencyMap verbEnv [js "Great (Organic) product"] [] =
      [(js "great", 1), (js "product", 1)] ∧
    frequencyMapOf verbEnv [js "Great (Organic) product"] [] [js "Organic"] ≠
      buildWordFrequencyMap verbEnv [js "Great (Organic) product"] [] ∧
    (frequencyMapOf verbEnv [js "Great (Organic) product"] [] [js "Organic"]).count
      (js "organic") = 1 ∧
    (buildWordFrequencyMap verbEnv [js "Great (Organic) product"] []).count (js "organic") = 0 := by
  decide

/-- What `processDataset` counts: record by record, the tokens that `extractTopWords` keeps
after its three filters, since `buildWordFrequencyMap` is handed the records already cleaned
with the priority list.  With an empty priority list that is
`buildWordFrequencyMap(dataset, ignoredWords)` on the raw records. -/
theorem frequencyMapOf_counts_filteredWords (env : Env)
    (dataset ignoredWords priorityWords : List Str) :
    frequencyMapOf env dataset ignoredWords priorityWords =
      dataset.foldl (fun frequencyMap line =>
        (filteredWords env line ignoredWords priorityWords).foldl FreqMap.increment
          frequencyMap) [] ∧
    frequencyMapOf env dataset ignoredWords [] =
      buildWordFrequencyMap env dataset ignoredWords := by
  refine ⟨?_, ?_⟩
  · rw [frequencyMapOf_eq_foldl, foldl_foldl_increment]
  · rw [frequencyMapOf_eq_foldl, buildWordFrequencyMap_eq_foldl]
    congr 1

/-- C14: `processDataset` returns one label for each record, in order, and the label at a
position is what `extractTopWords` gives the raw record there, with 4 words at most and the
frequency map `processDataset` built. -/
theorem processDataset_labels (env : Env) (dataset ignoredWords priorityWords : List Str) :
    (processDataset env dataset ignoredWords priorityWords).length = dataset.length ∧
    ∀ (i : Nat) (raw : Str), dataset[i]? = some raw →
      (processDataset env dataset ignoredWords priorityWords)[i]? =
        some (extractTopWords env raw (frequencyMapOf env dataset ignoredWords priorityWords) 4
          ignoredWords priorityWords) := by
  refine ⟨by simp [processDataset, cleanedData], ?_⟩
  intro i raw hi
  rw [processDataset_eq]
  simp only [cleanedData, List.map_map, List.getElem?_map, hi, Option.map_some',
    Function.comp, extractTopWords_cleanText]

/-- C14 on the records `The (quick) fox` and `A quick red fox`. -/
theorem processDataset_labels_witness :
    (processDataset verbEnv [js "The (quick) fox", js "A quick red fox"] [] [])[0]? =
      some (extractTopWords verbEnv (js "The (quick) fox")
        (frequencyMapOf verbEnv [js "The (quick) fox", js "A quick red fox"] [] []) 4 [] []) :=
  (processDataset_labels verbEnv [js "The (quick) fox", js "A quick red fox"] [] []).2 0
    (js "The (quick) fox") (by decide)

/-! ## The frequency filter inside processDataset -/

theorem count_frequencyMapOf_pos (env : Env) (dataset ignoredWords priorityWords : List Str)
    (record w : Str) (hrec : record ∈ dataset)
    (hw : w ∈ filteredWords env record ignoredWords priorityWords) :
    1 ≤ (frequencyMapOf env dataset ignoredWords priorityWords).count w := by
  have hmem : w ∈ dataset.flatMap
      (fun line => filteredWords env line ignoredWords priorityWords) :=
    List.mem_flatMap.mpr ⟨record, hrec, hw⟩
  have hpos := (occurrences_pos_iff w _).mpr hmem
  unfold FreqMap.count
  rw [frequencyMapOf_eq_foldl, lookup_foldl_increment, if_neg (by omega)]
  simp only [FreqMap.count, List.lookup, Option.getD_none, Nat.zero_add, Option.getD_some]
  exact hpos

theorem mem_uniqueWords_iff {env : Env} {line : Str} {ignoredWords priorityWords : List Str}
    {w : Str} :
    w ∈ uniqueWords env line ignoredWords priorityWords ↔
      w ∈ correctedWords env line ignoredWords priorityWords := by
  rw [uniqueWords, mem_uniq]

theorem joinSpace_ne_nil (x : Str) (xs : List Str) (hx : x ≠ []) : joinSpace (x :: xs) ≠ [] := by
  cases xs with
  | nil => simpa [joinSpace, List.intercalate] using hx
  | cons y ys => simp [joinSpace, List.intercalate, hx]

/-- C19: inside `processDataset` the frequency filter of the extractor discards nothing.
Every token of a record's filtered, plural-corrected, de-duplicated list has a count of at
least 1 in the frequency map `processDataset` built, so the candidates are all the tokens
that are no priority words, and the label of the record is empty exactly when no token of
the record passes the ignored-word, stop-word and meaningfulness filters.  The label
`processDataset` computes, from the cleaned record, is the label of the raw record. -/
theorem frequency_filter_keeps_all (env : Env) (dataset ignoredWords priorityWords : List Str)
    (record : Str) (hrec : record ∈ dataset) :
    (∀ w ∈ uniqueWords env record ignoredWords priorityWords,
      1 ≤ (frequencyMapOf env dataset ignoredWords priorityWords).count w) ∧
    candidateWords env record (frequencyMapOf env dataset ignoredWords priorityWords)
        ignoredWords priorityWords =
      (uniqueWords env record ignoredWords priorityWords).filter
        (fun word => decide (word ∉ priorityWords)) ∧
    (extractTopWords env record (frequencyMapOf env dataset ignoredWords priorityWords) 4
        ignoredWords priorityWords = [] ↔
      filteredWords env record ignoredWords priorityWords = []) ∧
    extractTopWords env (cleanText env record priorityWords)
        (frequencyMapOf env dataset ignoredWords priorityWords) 4 ignoredWords priorityWords =
      extractTopWords env record (frequencyMapOf env dataset ignoredWords priorityWords) 4
        ignoredWords priorityWords := by
  have hcount : ∀ w ∈ uniqueWords env record ignoredWords priorityWords,
      1 ≤ (frequencyMapOf env dataset ignoredWords priorityWords).count w := by
    intro w hw
    exact count_frequencyMapOf_pos env dataset ignoredWords priorityWords record w hrec
      (mem_filteredWords_of_mem_correctedWords (mem_uniqueWords_iff.mp hw))
  have hcand : candidateWords env record (frequencyMapOf env dataset ignoredWords priorityWords)
        ignoredWords priorityWords =
      (uniqueWords env record ignoredWords priorityWords).filter
        (fun word => decide (word ∉ priorityWords)) := by
    unfold candidateWords
    rw [List.filter_eq_self]
    intro w hw
    have := hcount w (List.mem_of_mem_filter hw)
    simp only [decide_eq_true_eq]
    omega
  refine ⟨hcount, hcand, ⟨?_, ?_⟩, extractTopWords_cleanText _ _ _ _ _ _⟩
  · intro hlabel
    by_contra hne
    obtain ⟨w, ws, hws⟩ := List.exists_cons_of_ne_nil hne
    have hwf : w ∈ filteredWords env record ignoredWords priorityWords := by
      rw [hws]
      simp
    have hcw : correctedWord (filteredWords env record ignoredWords priorityWords) w ∈
        uniqueWords env record ignoredWords priorityWords := by
      rw [mem_uniqueWords_iff, correctedWords_eq_map]
      exact List.mem_map_of_mem _ hwf
    generalize correctedWord (filteredWords env record ignoredWords priorityWords) w = u at hcw
    have hfinal : u ∈ finalWords env record
        (frequencyMapOf env dataset ignoredWords priorityWords) ignoredWords priorityWords := by
      rw [finalWords, List.mem_append]
      by_cases hp : u ∈ priorityWords
      · exact Or.inl (mem_priorityInLine.mpr ⟨hp, hcw⟩)
      · right
        rw [rankedWords, List.mem_insertionSort, hcand, List.mem_filter]
        exact ⟨hcw, by simpa using hp⟩
    obtain ⟨x, xs, hx⟩ := List.exists_cons_of_ne_nil (List.ne_nil_of_mem hfinal)
    have hxm : x ∈ finalWords env record
        (frequencyMapOf env dataset ignoredWords priorityWords) ignoredWords priorityWords := by
      rw [hx]
      simp
    have hcap := isCapitalized_capitalize (isMeaningfulWord_of_mem_uniqueWords
      (mem_uniqueWords_of_mem_finalWords hxm))
    obtain ⟨c, rest, hc, -⟩ := hcap
    have : extractTopWords env record (frequencyMapOf env dataset ignoredWords priorityWords) 4
        ignoredWords priorityWords ≠ [] := by
      unfold extractTopWords labelWords
      rw [hx, List.take_succ_cons, List.map_cons]
      apply joinSpace_ne_nil
      rw [hc]
      simp
    exact this hlabel
  · intro hnil
    have hu : uniqueWords env record ignoredWords priorityWords = [] := by
      rw [uniqueWords, correctedWords_eq_map, hnil]
      rfl
    unfold extractTopWords labelWords finalWords priorityInLine rankedWords
    rw [hcand, hu]
    simp [joinSpace, List.intercalate]

/-- C19 on the records `The quick brown fox` and `A quick red fox`: in the first record
`brown`, counted once, is kept. -/
theorem frequency_filter_keeps_all_witness :
    1 ≤ (frequencyMapOf verbEnv [js "The quick brown fox", js "A quick red fox"] [] []).count
      (js "brown") :=
  (frequency_filter_keeps_all verbEnv [js "The quick brown fox", js "A quick red fox"] [] []
    (js "The quick brown fox") (by decide)).1 (js "brown") (by decide)

/-! # Where the words of a label come from -/

theorem toLowerCase_capitalize {env : Env} {word : Str}
    (h : isMeaningfulWord env word = true) : toLowerCase env (capitalize env word) = word := by
  have haz := isLowerAZ_of_isMeaningfulWord h
  have hlen := length_of_isMeaningfulWord h
  cases word with
  | nil => simp at hlen
  | cons c rest =>
    have hc := haz c (by simp)
    rw [capitalize_cons env c rest hc]
    have hc' := (isLowerAZ_iff c).mp hc
    have hrest : ∀ d ∈ rest, 97 ≤ d ∧ d ≤ 122 := fun d hd =>
      (isLowerAZ_iff d).mp (haz d (List.mem_cons_of_mem _ hd))
    rw [toLowerCase_ascii env _ (by
      intro d hd
      rw [List.mem_cons] at hd
      rcases hd with rfl | hd
      · omega
      · have := hrest d hd
        omega)]
    rw [List.map_cons, map_asciiLower_of_no_upper rest (fun d hd => by
      have := hrest d hd
      omega)]
    have : asciiLower (c - 32) = c := by
      unfold asciiLower
      rw [if_pos (by omega)]
      omega
    rw [this]

/-- A word of the label is the capitalised form of a token that passed the three filters,
and lower-casing it gives the token back. -/
theorem exists_token_of_mem_labelWords {env : Env} {line : Str} {frequencyMap : FreqMap}
    {maxWords : Nat} {ignoredWords priorityWords : List Str} {lw : Str}
    (h : lw ∈ labelWords env line frequencyMap maxWords ignoredWords priorityWords) :
    ∃ w, w ∈ filteredWords env line ignoredWords priorityWords ∧
      w ∈ finalWords env line frequencyMap ignoredWords priorityWords ∧
      lw = capitalize env w ∧ toLowerCase env lw = w := by
  simp only [labelWords, List.mem_map] at h
  obtain ⟨w, hw, rfl⟩ := h
  have hfin := List.mem_of_mem_take hw
  have hu := mem_uniqueWords_of_mem_finalWords hfin
  have hf : w ∈ filteredWords env line ignoredWords priorityWords := by
    rw [uniqueWords, mem_uniq] at hu
    exact mem_filteredWords_of_mem_correctedWords hu
  exact ⟨w, hf, hfin, rfl, toLowerCase_capitalize (isMeaningfulWord_of_mem_filteredWords hf)⟩

theorem mem_filteredWords {env : Env} {line : Str} {ignoredWords priorityWords : List Str}
    {w : Str} (h : w ∈ filteredWords env line ignoredWords priorityWords) :
    w ∈ splitWs (cleanText env line priorityWords) ∧ w ∉ ignoredWords ∧
      env.isStopword w = false := by
  simp only [filteredWords, removeStopwords, List.mem_filter, decide_eq_true_eq,
    Bool.not_eq_true'] at h
  exact ⟨h.1.1.1, h.1.1.2, h.1.2⟩

/-- C15: no ignored word reaches a label.  No word of the label, lower-cased, is in the
ignored-words set, and neither are the words the label is built from, a priority word
found in the record and a plural put in by the plural correction among them. -/
theorem labelWords_not_ignored (env : Env) (line : Str) (frequencyMap : FreqMap)
    (maxWords : Nat) (ignoredWords priorityWords : List Str) :
    (∀ lw ∈ labelWords env line frequencyMap maxWords ignoredWords priorityWords,
      toLowerCase env lw ∉ ignoredWords) ∧
    (∀ w ∈ priorityInLine env line ignoredWords priorityWords, w ∉ ignoredWords) ∧
    (∀ w ∈ correctedWords env line ignoredWords priorityWords, w ∉ ignoredWords) := by
  refine ⟨?_, ?_, ?_⟩
  · intro lw hlw
    obtain ⟨w, hf, -, -, hlow⟩ := exists_token_of_mem_labelWords hlw
    rw [hlow]
    exact (mem_filteredWords hf).2.1
  · intro w hw
    have hu := (mem_priorityInLine.mp hw).2
    rw [uniqueWords, mem_uniq] at hu
    exact (mem_filteredWords (mem_filteredWords_of_mem_correctedWords hu)).2.1
  · intro w hw
    exact (mem_filteredWords (mem_filteredWords_of_mem_correctedWords hw)).2.1

/-- C15 on the record `tea leaf` with `tea` both ignored and declared as a priority word:
the label is `Leaf`. -/
theorem labelWords_not_ignored_witness :
    labelWords verbEnv (js "tea leaf") [(js "leaf", 1)] 4 [js "tea"] [js "tea"] = [js "Leaf"] ∧
    toLowerCase verbEnv (js "Leaf") ∉ [js "tea"] :=
  ⟨by decide,
   (labelWords_not_ignored verbEnv (js "tea leaf") [(js "leaf", 1)] 4 [js "tea"] [js "tea"]).1
    (js "Leaf") (by decide)⟩

/-- C20: `extractTopWords` invents no word.  Every word of the label, lower-cased, is one of
the pieces of `cleanText(record, priorityWords)` split at white space; the plural correction
puts in only words that are among the filtered tokens of the record; and a priority word
in the label is a piece of the cleaned record. -/
theorem labelWords_from_record (env : Env) (line : Str) (frequencyMap : FreqMap)
    (maxWords : Nat) (ignoredWords priorityWords : List Str) :
    (∀ lw ∈ labelWords env line frequencyMap maxWords ignoredWords priorityWords,
      toLowerCase env lw ∈ splitWs (cleanText env line priorityWords)) ∧
    (∀ w ∈ correctedWords env line ignoredWords priorityWords,
      w ∈ filteredWords env line ignoredWords priorityWords) ∧
    (∀ p ∈ priorityInLine env line ignoredWords priorityWords,
      p ∈ splitWs (cleanText env line priorityWords)) := by
  refine ⟨?_, ?_, ?_⟩
  · intro lw hlw
    obtain ⟨w, hf, -, -, hlow⟩ := exists_token_of_mem_labelWords hlw
    rw [hlow]
    exact (mem_filteredWords hf).1
  · intro w hw
    exact mem_filteredWords_of_mem_correctedWords hw
  · intro p hp
    have hu := (mem_priorityInLine.mp hp).2
    rw [uniqueWords, mem_uniq] at hu
    exact (mem_filteredWords (mem_filteredWords_of_mem_correctedWords hu)).1

/-- C20 on the record `cat cats dog` with the absent priority word `tea`: the label is
`Cats Dog`, and `cats` is a piece of the record. -/
theorem labelWords_from_record_witness :
    labelWords verbEnv (js "cat cats dog") [(js "cat", 1), (js "cats", 1), (js "dog", 1)] 4 []
      [js "tea"] = [js "Cats", js "Dog"] ∧
    toLowerCase verbEnv (js "Cats") ∈ splitWs (cleanText verbEnv (js "cat cats dog") [js "tea"]) :=
  ⟨by decide,
   (labelWords_from_record verbEnv (js "cat cats dog")
      [(js "cat", 1), (js "cats", 1), (js "dog", 1)] 4 [] [js "tea"]).1 (js "Cats") (by decide)⟩

/-! # No singular and plural side by side -/

theorem getPluralForm_ends_s (word : Str) : [115] <:+ getPluralForm word := by
  rw [getPluralForm_eq]
  split_ifs with h
  · exact h
  all_goals
    refine List.IsSuffix.trans ?_ (List.suffix_append _ _)
    decide

theorem getPluralForm_of_ends_s {word : Str} (h : [115] <:+ word) : getPluralForm word = word := by
  rw [getPluralForm_eq, if_pos h]

theorem singularForm_of_not_ends_s {word : Str} (h : ¬ [115] <:+ word) :
    singularForm word = word := by
  unfold singularForm
  rw [if_neg]
  simpa [js_s] using h

theorem lookup_pluralMap (words : List Str) (word : Str) :
    (pluralMap words).lookup word =
      if word ∈ words ∧ (hasPluralEntry words word && decide (word ≠ js "__proto__")) = true
      then some (getPluralForm word) else none := by
  unfold pluralMap
  exact lookup_filter_map _ _ word words

/-- What a string in the output of `applyPluralCorrection` is: a token that has no entry in
`pluralMap`, or the plural of a token that has one. -/
theorem str_mem_applyPluralCorrection {words : List Str} {x : Str}
    (h : Val.str x ∈ applyPluralCorrection words) :
    x ∈ words ∧
      ((hasPluralEntry words x = false ∧ x ∉ inheritedNames) ∨
        ∃ w ∈ words, hasPluralEntry words w = true ∧ x = getPluralForm w) := by
  simp only [applyPluralCorrection, List.mem_map] at h
  obtain ⟨w, hw, hlook⟩ := h
  unfold pluralLookup at hlook
  rw [lookup_pluralMap] at hlook
  by_cases hc : w ∈ words ∧ (hasPluralEntry words w && decide (w ≠ js "__proto__")) = true
  · rw [if_pos hc] at hlook
    simp only [getPluralForm_ne_nil, if_false, Val.str.injEq] at hlook
    have hE : hasPluralEntry words w = true := by
      have := hc.2
      simp only [Bool.and_eq_true] at this
      exact this.1
    have hin : getPluralForm w ∈ words := by
      simp only [hasPluralEntry, Bool.and_eq_true, decide_eq_true_eq] at hE
      exact hE.1.2
    exact ⟨hlook ▸ hin, Or.inr ⟨w, hw, hE, hlook.symm⟩⟩
  · rw [if_neg hc] at hlook
    by_cases hi : w ∈ inheritedNames
    · simp [hi] at hlook
    · simp only [hi, if_false, Val.str.injEq] at hlook
      subst hlook
      refine ⟨hw, Or.inl ⟨?_, hi⟩⟩
      have hproto : w ≠ js "__proto__" := by
        rintro rfl
        exact hi (by decide)
      by_contra hE
      have hE' : hasPluralEntry words w = true := by simpa using hE
      exact hc ⟨hw, by simp [hE', hproto]⟩

/-- A token that ends in `s` stays as it is. -/
theorem pluralLookup_of_ends_s {words : List Str} {v : Str} (hs : [115] <:+ v) :
    pluralLookup (pluralMap words) v = Val.str v := by
  have hE : hasPluralEntry words v = false := by
    simp [hasPluralEntry, getPluralForm_of_ends_s hs]
  have hi : v ∉ inheritedNames := by
    intro hmem
    have key : ∀ n ∈ inheritedNames, ¬ [115] <:+ n := by decide
    exact key v hmem hs
  unfold pluralLookup
  rw [lookup_pluralMap]
  simp [hE, hi]

/-- C16: the output of `applyPluralCorrection` never holds both a token `W` and
`getPluralForm W` when the two differ; when both are among the input tokens, the plural is
the one that stays and `W` is gone. -/
theorem applyPluralCorrection_no_pair (words : List Str) (W : Str) :
    (Val.str W ∈ applyPluralCorrection words →
      Val.str (getPluralForm W) ∈ applyPluralCorrection words → getPluralForm W = W) ∧
    (W ∈ words → getPluralForm W ∈ words → getPluralForm W ≠ W →
      Val.str (getPluralForm W) ∈ applyPluralCorrection words ∧
      Val.str W ∉ applyPluralCorrection words) := by
  have first : Val.str W ∈ applyPluralCorrection words →
      Val.str (getPluralForm W) ∈ applyPluralCorrection words → getPluralForm W = W := by
    intro hW hP
    by_contra hne
    have hns : ¬ [115] <:+ W := fun hs => hne (getPluralForm_of_ends_s hs)
    obtain ⟨hWin, hcase⟩ := str_mem_applyPluralCorrection hW
    obtain ⟨hPin, -⟩ := str_mem_applyPluralCorrection hP
    rcases hcase with ⟨hE, -⟩ | ⟨w, -, -, hw⟩
    · have : hasPluralEntry words W = true := by
        simp [hasPluralEntry, singularForm_of_not_ends_s hns, hWin, hPin, hne]
      rw [this] at hE
      exact absurd hE (by simp)
    · exact hns (hw ▸ getPluralForm_ends_s w)
  refine ⟨first, ?_⟩
  intro _ hPin hne
  have hP : Val.str (getPluralForm W) ∈ applyPluralCorrection words := by
    simp only [applyPluralCorrection, List.mem_map]
    exact ⟨getPluralForm W, hPin, pluralLookup_of_ends_s (getPluralForm_ends_s W)⟩
  exact ⟨hP, fun hW => hne (first hW hP)⟩

/-- C16 on `["cat", "cats", "dog"]`: `cats` stays and `cat` is gone. -/
theorem applyPluralCorrection_no_pair_witness :
    Val.str (js "cats") ∈ applyPluralCorrection [js "cat", js "cats", js "dog"] ∧
    Val.str (js "cat") ∉ applyPluralCorrection [js "cat", js "cats", js "dog"] :=
  (applyPluralCorrection_no_pair [js "cat", js "cats", js "dog"] (js "cat")).2
    (by decide) (by decide) (by decide)

/-! # An unterminated bracket -/

theorem lazyUpTo_eq_none (close : Nat) : ∀ (s : Str), close ∉ s → lazyUpTo close s = none
  | [], _ => rfl
  | c :: cs, h => by
    have h1 : c ≠ close := fun e => h (by simp [e])
    have ih := lazyUpTo_eq_none close cs (fun hm => h (List.mem_cons_of_mem _ hm))
    simp only [lazyUpTo, if_neg h1, ih, Option.map_none']
    split <;> rfl

theorem replaceBracketsFrom_of_no_close (env : Env) (priorityWords : List Str) :
    ∀ (s : Str), (∀ c ∈ s, c ≠ 41 ∧ c ≠ 93 ∧ c ≠ 125) →
      replaceBracketsFrom env priorityWords 0 s = s
  | [], _ => rfl
  | c :: cs, h => by
    have hcs : ∀ d ∈ cs, d ≠ 41 ∧ d ≠ 93 ∧ d ≠ 125 := fun d hd => h d (List.mem_cons_of_mem _ hd)
    have ih := replaceBracketsFrom_of_no_close env priorityWords cs hcs
    cases hco : closeOf c with
    | none => simp only [replaceBracketsFrom, hco, ih]
    | some close =>
      have hclose : close = 93 ∨ close = 41 ∨ close = 125 := by
        unfold closeOf at hco
        split_ifs at hco <;> simp at hco <;> omega
      have hnot : close ∉ cs := by
        intro hm
        have := hcs close hm
        omega
      simp only [replaceBracketsFrom, hco, lazyUpTo_eq_none close cs hnot, ih]

/-- C17: on a text without any of the closing delimiters `)`, `]`, `}` nothing is removed:
`cleanText` gives the text lower-cased, with every code unit other than `a`-`z` and white
space replaced by a space, runs of white space collapsed and the ends trimmed, whatever the
priority list. -/
theorem cleanText_of_no_close (env : Env) (text : Str) (priorityWords : List Str)
    (h : ∀ c ∈ text, c ≠ 41 ∧ c ≠ 93 ∧ c ≠ 125) :
    cleanText env text priorityWords =
      trim (collapseWs (replaceNonLetters (toLowerCase env text))) ∧
    ∀ other : List Str, cleanText env text other = cleanText env text priorityWords := by
  have key : ∀ p : List Str, cleanText env text p =
      trim (collapseWs (replaceNonLetters (toLowerCase env text))) := by
    intro p
    unfold cleanText replaceBrackets
    rw [replaceBracketsFrom_of_no_close env p text h]
  exact ⟨key priorityWords, fun other => by rw [key other, key priorityWords]⟩

/-- C17 on `Great (Organic product`: every word after the unmatched `(` is kept. -/
theorem cleanText_of_no_close_witness :
    cleanText verbEnv (js "Great (Organic product") [] = js "great organic product" ∧
    cleanText verbEnv (js "Great (Organic product") [js "tea"] =
      cleanText verbEnv (js "Great (Organic product") [] :=
  ⟨by decide,
   (cleanText_of_no_close verbEnv (js "Great (Organic product") [] (by decide)).2 [js "tea"]⟩

/-! # The two output artifacts -/

/-- C18: the sequence written as Output Artifact 2 holds no label twice, holds exactly the
labels that are the processed value of some record in Output Artifact 1, and lists them in
the order of their first occurrence among the labels of the records. -/
theorem resultOnlyProcessed_distinct (env : Env) (productData ignoredWords priorityWords : List Str) :
    (resultOnlyProcessed env productData ignoredWords priorityWords).Nodup ∧
    (∀ label : Str, label ∈ resultOnlyProcessed env productData ignoredWords priorityWords ↔
      ∃ original, (original, label) ∈
        resultWithOriginal env productData ignoredWords priorityWords) ∧
    (∀ a b : Str,
      List.Sublist [a, b] (resultOnlyProcessed env productData ignoredWords priorityWords) →
      ∃ pre post, processDataset env productData ignoredWords priorityWords = pre ++ a :: post ∧
        a ∉ pre ∧ b ∉ pre) := by
  refine ⟨nodup_uniq _, ?_, ?_⟩
  · intro label
    have hlen : (processDataset env productData ignoredWords priorityWords).length ≤
        productData.length := by
      simp [processDataset, cleanedData]
    have hsnd := List.map_snd_zip productData
      (processDataset env productData ignoredWords priorityWords) hlen
    rw [resultOnlyProcessed, mem_uniq]
    constructor
    · intro hl
      rw [← hsnd, List.mem_map] at hl
      obtain ⟨⟨o, l⟩, hmem, rfl⟩ := hl
      exact ⟨o, hmem⟩
    · rintro ⟨o, hmem⟩
      rw [← hsnd]
      exact List.mem_map.mpr ⟨(o, label), hmem, rfl⟩
  · intro a b hab
    exact first_occurrence_of_pair_sublist_uniq _ hab

/-- C18 on three records of which two get the same label. -/
theorem resultOnlyProcessed_distinct_witness :
    processDataset verbEnv [js "red fox", js "blue fox", js "Red (x) fox"] [] [] =
      [js "Fox Red", js "Fox Blue", js "Fox Red"] ∧
    resultOnlyProcessed verbEnv [js "red fox", js "blue fox", js "Red (x) fox"] [] [] =
      [js "Fox Red", js "Fox Blue"] ∧
    ∃ original, (original, js "Fox Blue") ∈
      resultWithOriginal verbEnv [js "red fox", js "blue fox", js "Red (x) fox"] [] [] :=
  ⟨by decide, by decide,
   ((resultOnlyProcessed_distinct verbEnv [js "red fox", js "blue fox", js "Red (x) fox"] []
      []).2.1 (js "Fox Blue")).mp (by decide)⟩

end Operation
